import Mathlib

/-! Huffman coding (`Semestrovka-aisd.cpp`)

A shallow embedding of the Huffman coder of `Semestrovka-aisd.cpp` and the
properties of it that the specification states.

Modelling conventions.

* `std::string` is a `List Char`; the characters `'0'` and `'1'` are the bits
  of an encoded stream.
* A value of type `Node*` is a `Node`: either `Node.nullptr` or the address of
  a heap node, given by the four fields of the node.
* `int` is `Int`, every addition wrapped to 32 bits by `wrapInt`.
* `std::unordered_map<K, V>` is an association list with distinct keys; the
  order of the list is the iteration order of the map.
* `std::priority_queue` is the list of its elements. Which of several
  elements of least weight `top()` returns is decided by a parameter `tie`, a
  function of the content of the queue. The order in which the leaves enter
  the queue matters through these choices only, so a statement for every `tie`
  holds for every heap implementation and every iteration order of the
  frequency map.
* A call ends as an `Outcome`: a value, a C++ exception
  (`std::out_of_range` out of `unordered_map::at`), or undefined behaviour
  (reading through `nullptr`, `top()` of an empty queue).
-/

namespace Huffman

/-- Outcome of a call: normal return, a propagating C++ exception, or
undefined behaviour. -/
inductive Outcome (α : Type) where
  | ok (value : α)
  | exception
  | undefined
deriving DecidableEq, Repr

/-- Sequencing of calls: the first failure is the failure of the whole. -/
def Outcome.bind {α β : Type} : Outcome α → (α → Outcome β) → Outcome β
  | .ok a, f => f a
  | .exception, _ => .exception
  | .undefined, _ => .undefined

/-- Value of type `Node*`: `nullptr`, or a node with its fields `ch`, `weight`,
`leftHeir`, `rightHeir`. -/
inductive Node where
  | nullptr
  | mk (ch : Char) (weight : Int) (leftHeir rightHeir : Node)
deriving DecidableEq, Repr

/-- Test `p == nullptr`. -/
def Node.isNull : Node → Bool
  | .nullptr => true
  | .mk _ _ _ _ => false

/-- Field read `p->weight`. The priority queue holds results of `new` only, so
the value at `nullptr` is never used. -/
def Node.weight : Node → Int
  | .nullptr => 0
  | .mk _ w _ _ => w

/-- Two's complement wrap-around of a 32-bit `int`. -/
def wrapInt (z : Int) : Int := (z + 2147483648) % 4294967296 - 2147483648

/-- Association list standing for `std::unordered_map<K, V>`. -/
abbrev UMap (K V : Type) := List (K × V)

/-- Lookup of a key: the mapped value, if the key is present. -/
def umapFind {K V : Type} [DecidableEq K] : UMap K V → K → Option V
  | [], _ => none
  | (k, v) :: m, key => if k = key then some v else umapFind m key

/-- Member `m.count(key)`: 1 if the key is present, else 0. -/
def umapCount {K V : Type} [DecidableEq K] (m : UMap K V) (key : K) : Nat :=
  if (umapFind m key).isSome then 1 else 0

/-- Member `m.at(key)`: throws `std::out_of_range` when the key is absent. -/
def umapAt {K V : Type} [DecidableEq K] (m : UMap K V) (key : K) : Outcome V :=
  match umapFind m key with
  | some v => .ok v
  | none => .exception

/-- Assignment `m[key] = value`: overwrites the value of a present key,
inserts an absent one. -/
def umapAssign {K V : Type} [DecidableEq K] : UMap K V → K → V → UMap K V
  | [], key, value => [(key, value)]
  | (k, v) :: m, key, value =>
    if k = key then (k, value) :: m else (k, v) :: umapAssign m key value

/-- Counts every character: `charWeightMap[ch]++` for each `ch` of the text,
where `operator[]` starts an absent key at 0. -/
def getCharWeightMap (text : List Char) : UMap Char Int :=
  text.foldl
    (fun charWeightMap ch =>
      umapAssign charWeightMap ch (wrapInt ((umapFind charWeightMap ch).getD 0 + 1)))
    []

/-- Comparator of the priority queue: `x->weight > y->weight`. -/
def CompareNodes (x y : Node) : Bool := decide (x.weight > y.weight)

/-- Member `push` of the priority queue. -/
def pqPush (q : List Node) (x : Node) : List Node := q ++ [x]

/-- Positions that `top()` may return: the elements that the comparator puts
before no element of the queue, that is the elements of least weight. -/
def pqCandidates (q : List Node) : List Nat :=
  (List.range q.length).filter
    (fun i => q.all (fun y => !CompareNodes (q.getD i .nullptr) y))

/-- Position of the element that `top()` returns, chosen by `tie` among the
candidates. -/
def pqTopIdx (tie : List Node → Nat) (q : List Node) : Nat :=
  (pqCandidates q).getD (tie q % (pqCandidates q).length) 0

/-- Member `top`: undefined behaviour on an empty queue. -/
def pqTop (tie : List Node → Nat) (q : List Node) : Outcome Node :=
  match q[pqTopIdx tie q]? with
  | some x => .ok x
  | none => .undefined

/-- Member `pop`: removes the element that `top()` returns. -/
def pqPop (tie : List Node → Nat) (q : List Node) : List Node :=
  q.eraseIdx (pqTopIdx tie q)

/-- Body of the `while` loop of `makeHuffmanTree`: the two least nodes leave
the queue and their parent enters it. -/
def mergeStep (tie : List Node → Nat) (q : List Node) : Outcome (List Node) :=
  (pqTop tie q).bind fun x =>
    let q1 := pqPop tie q
    (pqTop tie q1).bind fun y =>
      let q2 := pqPop tie q1
      .ok (pqPush q2 (.mk '#' (wrapInt (x.weight + y.weight)) x y))

/-- The loop `while (weightPriorityQueue.size() > 1)`, with a bound on the
number of iterations; `makeHuffmanTree` passes the size of the queue, which
the loop never exhausts (`mergeLoop_terminates`). -/
def mergeLoop (tie : List Node → Nat) : Nat → List Node → Outcome (List Node)
  | 0, q => .ok q
  | fuel + 1, q =>
    if q.length > 1 then (mergeStep tie q).bind (mergeLoop tie fuel) else .ok q

/-- The queue after the first loop of `makeHuffmanTree`: one leaf for each
pair of the frequency map. -/
def initialQueue (text : List Char) : List Node :=
  (getCharWeightMap text).foldl
    (fun q pair => pqPush q (.mk pair.1 pair.2 .nullptr .nullptr)) []

/-- Function `makeHuffmanTree`. -/
def makeHuffmanTree (tie : List Node → Nat) (text : List Char) : Outcome Node :=
  let weightPriorityQueue := initialQueue text
  (mergeLoop tie weightPriorityQueue.length weightPriorityQueue).bind (pqTop tie)

/-- Function `encodeRecursion`. -/
def encodeRecursion : Node → List Char → UMap Char (List Char) → Outcome (UMap Char (List Char))
  | .nullptr, _, _ => .undefined
  | .mk ch _ leftHeir rightHeir, currentCode, huffmanCode =>
    if leftHeir.isNull && rightHeir.isNull then
      .ok (umapAssign huffmanCode ch currentCode)
    else
      (encodeRecursion leftHeir (currentCode ++ ['0']) huffmanCode).bind
        (encodeRecursion rightHeir (currentCode ++ ['1']))

/-- Function `encodeChars`. -/
def encodeChars (root : Node) : Outcome (UMap Char (List Char)) :=
  encodeRecursion root [] []

/-- The loop of `encodeText`, `encodedString` being the output so far. -/
def encodeTextLoop (huffmanCode : UMap Char (List Char)) :
    List Char → List Char → Outcome (List Char)
  | [], encodedString => .ok encodedString
  | ch :: rest, encodedString =>
    (umapAt huffmanCode ch).bind fun code =>
      encodeTextLoop huffmanCode rest (encodedString ++ code)

/-- Function `encodeText`. -/
def encodeText (text : List Char) (huffmanCode : UMap Char (List Char)) :
    Outcome (List Char) :=
  encodeTextLoop huffmanCode text []

/-- The loop of `decodeWithTree`, from the node `current` with the output
`resultText` so far. -/
def decodeWithTreeLoop (root : Node) : List Char → Node → List Char → Outcome (List Char)
  | [], _, resultText => .ok resultText
  | bit :: rest, current, resultText =>
    match current with
    | .nullptr => .undefined
    | .mk _ _ leftHeir rightHeir =>
      match (if bit = '0' then leftHeir else rightHeir) with
      | .nullptr => .undefined
      | .mk ch w l r =>
        if l.isNull && r.isNull then
          decodeWithTreeLoop root rest root (resultText ++ [ch])
        else
          decodeWithTreeLoop root rest (.mk ch w l r) resultText

/-- Function `decodeWithTree`. -/
def decodeWithTree (root : Node) (huffmanCode : List Char) : Outcome (List Char) :=
  decodeWithTreeLoop root huffmanCode root []

/-- The first loop of `decodeWithMap`: `decodeMap[pair.second] = pair.first`
for each pair of the code map. -/
def invertCodeMap (codeMap : UMap Char (List Char)) : UMap (List Char) Char :=
  codeMap.foldl (fun decodeMap pair => umapAssign decodeMap pair.2 pair.1) []

/-- The second loop of `decodeWithMap`, with the buffer `currentCode` and the
output `resultText` so far. -/
def decodeWithMapLoop (decodeMap : UMap (List Char) Char) :
    List Char → List Char → List Char → Outcome (List Char)
  | [], _, resultText => .ok resultText
  | bit :: rest, currentCode, resultText =>
    if umapCount decodeMap (currentCode ++ [bit]) ≠ 0 then
      (umapAt decodeMap (currentCode ++ [bit])).bind fun ch =>
        decodeWithMapLoop decodeMap rest [] (resultText ++ [ch])
    else
      decodeWithMapLoop decodeMap rest (currentCode ++ [bit]) resultText

/-- Function `decodeWithMap`. -/
def decodeWithMap (codeMap : UMap Char (List Char)) (huffmanCode : List Char) :
    Outcome (List Char) :=
  decodeWithMapLoop (invertCodeMap codeMap) huffmanCode [] []

/-- A `tie` that lets `top()` return the first of the candidates. -/
def firstCandidate : List Node → Nat := fun _ => 0

/-- Test that a node has no children, as the program writes it:
`node->leftHeir == nullptr && node->rightHeir == nullptr`. -/
def Node.isLeaf : Node → Bool
  | .nullptr => false
  | .mk _ _ l r => l.isNull && r.isNull

/-- Strict binary tree: not `nullptr`, and every node has either no child or
two children that are strict binary trees. -/
def isStrict : Node → Bool
  | .nullptr => false
  | .mk _ _ l r => (l.isNull && r.isNull) || (isStrict l && isStrict r)

/-- The leaves of a tree from left to right, each with its path from the
root: `'0'` for a step to `leftHeir`, `'1'` for a step to `rightHeir`. -/
def pathList : Node → List (Char × List Char)
  | .nullptr => []
  | .mk ch _ l r =>
    if l.isNull && r.isNull then [(ch, [])]
    else (pathList l).map (fun p => (p.1, '0' :: p.2)) ++
      (pathList r).map (fun p => (p.1, '1' :: p.2))

/-- The symbols at the leaves of a tree, from left to right. -/
def leafSymbols (n : Node) : List Char := (pathList n).map Prod.fst

/-- The code that a table gives a symbol (empty for an absent symbol). -/
def codeOf (table : UMap Char (List Char)) (c : Char) : List Char :=
  (umapFind table c).getD []

/-- Concatenation, in input order, of the codes of the symbols of a text. -/
def concatCodes (table : UMap Char (List Char)) (text : List Char) : List Char :=
  (text.map (codeOf table)).flatten

/-- Neither of two bit strings starts with the other. -/
def Unrelated (a b : List Char) : Prop := ¬ a <+: b ∧ ¬ b <+: a

/-- The trees in the queue are strict and their leaves carry the given
symbols, each once. -/
def QueueInv (keys : List Char) (q : List Node) : Prop :=
  (∀ n ∈ q, isStrict n = true) ∧ (q.flatMap leafSymbols).Perm keys

/-- The weights in the queue are not negative and add up to `total`. -/
def WeightInv (total : Int) (q : List Node) : Prop :=
  (∀ n ∈ q, 0 ≤ n.weight) ∧ (q.map Node.weight).sum = total

/-- The text "aaaa", of one repeated symbol. -/
def textAaaa : List Char := ['a', 'a', 'a', 'a']

/-- The text "abbcccc": its symbols have the weights 1, 2 and 4, so no two
nodes of equal weight ever meet in the queue. -/
def textAbbcccc : List Char := ['a', 'b', 'b', 'c', 'c', 'c', 'c']

/-- The tree of "abbcccc". -/
def treeAbbcccc : Node :=
  .mk '#' 7
    (.mk '#' 3 (.mk 'a' 1 .nullptr .nullptr) (.mk 'b' 2 .nullptr .nullptr))
    (.mk 'c' 4 .nullptr .nullptr)

/-- Largest value of a 32-bit `int`. -/
def INT_MAX : Int := 2147483647

/-- The content of the buffer `currentCode` when the second loop of
`decodeWithMap` ends: the loop of `decodeWithMapLoop`, followed for the buffer
alone. -/
def decodeWithMapBuffer (decodeMap : UMap (List Char) Char) :
    List Char → List Char → List Char
  | [], currentCode => currentCode
  | bit :: rest, currentCode =>
    if umapCount decodeMap (currentCode ++ [bit]) ≠ 0 then
      decodeWithMapBuffer decodeMap rest []
    else
      decodeWithMapBuffer decodeMap rest (currentCode ++ [bit])

/-- The code table of "abbcccc". -/
def codesAbbcccc : UMap Char (List Char) :=
  [('a', ['0', '0']), ('b', ['0', '1']), ('c', ['1'])]

/-- The leaves of a tree from left to right, each with its symbol and its
weight. -/
def leafList : Node → List (Char × Int)
  | .nullptr => []
  | .mk ch w l r => if l.isNull && r.isNull then [(ch, w)] else leafList l ++ leafList r

/-- Every inner node of the tree has the sum of the weights of its two children
as its weight. -/
def weightsAdd : Node → Prop
  | .nullptr => True
  | .mk _ w l r =>
    (l.isNull && r.isNull) = true ∨ (w = l.weight + r.weight ∧ weightsAdd l ∧ weightsAdd r)

/-- The weights in the queue are not negative and add up to `total`, and in
every tree of the queue the weights of the inner nodes are the sums of the
weights of their children. -/
def AddInv (total : Int) (q : List Node) : Prop :=
  WeightInv total q ∧ ∀ n ∈ q, weightsAdd n

/-- Paths of a tree: from the node `n`, the steps `p`, `'0'` for a step to
`leftHeir` and `'1'` for a step to `rightHeir`, lead to a leaf that carries the
symbol `c`. -/
inductive LeafAt : Node → List Char → Char → Prop
  | here (ch : Char) (w : Int) (l r : Node) :
      (l.isNull && r.isNull) = true → LeafAt (.mk ch w l r) [] ch
  | left (ch : Char) (w : Int) (l r : Node) (p : List Char) (c : Char) :
      (l.isNull && r.isNull) = false → LeafAt l p c → LeafAt (.mk ch w l r) ('0' :: p) c
  | right (ch : Char) (w : Int) (l r : Node) (p : List Char) (c : Char) :
      (l.isNull && r.isNull) = false → LeafAt r p c → LeafAt (.mk ch w l r) ('1' :: p) c

/-- The text "Hello world!". -/
def textHello : List Char :=
  ['H', 'e', 'l', 'l', 'o', ' ', 'w', 'o', 'r', 'l', 'd', '!']

/-- A text of 2147483648 symbols, one more than the largest `int`: the symbol
`a` repeated. -/
def textOverflow : List Char := List.replicate (2147483647 + 1) 'a'

/-- A text of 2147483648 symbols: 2147483647 times `a`, then `b`. -/
def textOverflowAB : List Char := List.replicate (2147483646 + 1) 'a' ++ ['b']

/-- The tree that `makeHuffmanTree` builds for `textOverflowAB`: the count of
`a` is 2147483647, and the sum of the two weights wraps around. -/
def treeOverflowAB : Node :=
  .mk '#' (-2147483648) (.mk 'b' 1 .nullptr .nullptr) (.mk 'a' 2147483647 .nullptr .nullptr)

theorem umapFind_mem {K V : Type} [DecidableEq K] (m : UMap K V) (k : K) (v : V)
    (h : umapFind m k = some v) : (k, v) ∈ m := by
  induction m with
  | nil => simp [umapFind] at h
  | cons p m ih =>
    obtain ⟨k0, v0⟩ := p
    by_cases hk : k0 = k
    · simp [umapFind, hk] at h
      simp [hk, h]
    · simp [umapFind, hk] at h
      exact List.mem_cons_of_mem _ (ih h)

theorem umapFind_eq_none {K V : Type} [DecidableEq K] (m : UMap K V) (k : K) :
    umapFind m k = none ↔ k ∉ m.map Prod.fst := by
  induction m with
  | nil => simp [umapFind]
  | cons p m ih =>
    obtain ⟨k0, v0⟩ := p
    by_cases hk : k0 = k
    · simp [umapFind, hk]
    · simp only [umapFind, hk, if_false, ih, List.map_cons, List.mem_cons]
      constructor
      · intro h1 h2
        rcases h2 with h2 | h2
        · exact hk h2.symm
        · exact h1 h2
      · intro h1 h2
        exact h1 (Or.inr h2)

theorem umapFind_of_mem {K V : Type} [DecidableEq K] (m : UMap K V) (k : K) (v : V)
    (hnd : (m.map Prod.fst).Nodup) (h : (k, v) ∈ m) : umapFind m k = some v := by
  induction m with
  | nil => simp at h
  | cons p m ih =>
    obtain ⟨k0, v0⟩ := p
    simp only [List.map_cons, List.nodup_cons] at hnd
    rcases List.mem_cons.mp h with h | h
    · injection h with h1 h2
      simp [umapFind, h1, h2]
    · have hk : k0 ≠ k := by
        intro e
        apply hnd.1
        rw [e]
        exact List.mem_map_of_mem Prod.fst h
      simp only [umapFind, hk, if_false]
      exact ih hnd.2 h

theorem umapAssign_of_not_mem {K V : Type} [DecidableEq K] (m : UMap K V) (k : K) (v : V)
    (h : k ∉ m.map Prod.fst) : umapAssign m k v = m ++ [(k, v)] := by
  induction m with
  | nil => rfl
  | cons p m ih =>
    obtain ⟨k0, v0⟩ := p
    simp only [List.map_cons, List.mem_cons, not_or] at h
    have hk : k0 ≠ k := fun e => h.1 e.symm
    simp [umapAssign, hk, ih h.2]

/-- Assigning pairs with distinct, new keys one after the other appends
them. -/
theorem foldl_umapAssign {K V A : Type} [DecidableEq K] (f : A → K) (g : A → V)
    (ps : List A) (m : UMap K V) (hnd : (ps.map f).Nodup)
    (hdis : ∀ a ∈ ps, f a ∉ m.map Prod.fst) :
    ps.foldl (fun m a => umapAssign m (f a) (g a)) m = m ++ ps.map (fun a => (f a, g a)) := by
  induction ps generalizing m with
  | nil => simp
  | cons a ps ih =>
    simp only [List.map_cons, List.nodup_cons] at hnd
    simp only [List.foldl_cons]
    rw [umapAssign_of_not_mem m _ _ (hdis a (List.mem_cons_self _ _))]
    rw [ih _ hnd.2]
    · simp
    · intro b hb
      simp only [List.map_append, List.map_cons, List.map_nil, List.mem_append,
        List.mem_singleton, not_or]
      refine ⟨hdis b (List.mem_cons_of_mem _ hb), ?_⟩
      intro e
      apply hnd.1
      rw [← e]
      exact List.mem_map_of_mem f hb

/-! ## The encoder -/

theorem encodeTextLoop_ok (table : UMap Char (List Char)) (text acc : List Char)
    (h : ∀ c ∈ text, (umapFind table c).isSome) :
    encodeTextLoop table text acc = .ok (acc ++ concatCodes table text) := by
  induction text generalizing acc with
  | nil => simp [encodeTextLoop, concatCodes]
  | cons c rest ih =>
    have hc := h c (List.mem_cons_self _ _)
    obtain ⟨v, hv⟩ := Option.isSome_iff_exists.mp hc
    have hrest : ∀ d ∈ rest, (umapFind table d).isSome :=
      fun d hd => h d (List.mem_cons_of_mem _ hd)
    simp only [encodeTextLoop, umapAt, hv, Outcome.bind]
    rw [ih _ hrest]
    simp [concatCodes, codeOf, hv]

theorem encodeTextLoop_exception (table : UMap Char (List Char)) (text acc : List Char)
    (h : ∃ c ∈ text, umapFind table c = none) :
    encodeTextLoop table text acc = .exception := by
  induction text generalizing acc with
  | nil => simp at h
  | cons c rest ih =>
    cases hv : umapFind table c with
    | none => simp [encodeTextLoop, umapAt, hv, Outcome.bind]
    | some v =>
      simp only [encodeTextLoop, umapAt, hv, Outcome.bind]
      apply ih
      obtain ⟨d, hd, hnone⟩ := h
      rcases List.mem_cons.mp hd with e | hd
      · rw [e, hv] at hnone
        cases hnone
      · exact ⟨d, hd, hnone⟩

theorem concatCodes_append (table : UMap Char (List Char)) (a b : List Char) :
    concatCodes table (a ++ b) = concatCodes table a ++ concatCodes table b := by
  simp [concatCodes]

/-! ## Trees -/

theorem Node.isNull_iff (n : Node) : n.isNull = true ↔ n = .nullptr := by
  cases n <;> simp [Node.isNull]

theorem isStrict_ne_null (n : Node) (h : isStrict n = true) : n.isNull = false := by
  cases n with
  | nullptr => simp [isStrict] at h
  | mk _ _ _ _ => rfl

/-- An inner node of a strict tree has two strict children. -/
theorem isStrict_children (ch : Char) (w : Int) (l r : Node)
    (h : isStrict (.mk ch w l r) = true) (hl : (l.isNull && r.isNull) = false) :
    isStrict l = true ∧ isStrict r = true := by
  simp only [isStrict, hl, Bool.false_or, Bool.and_eq_true] at h
  exact h

theorem pathList_leaf (ch : Char) (w : Int) (l r : Node)
    (hl : (l.isNull && r.isNull) = true) : pathList (.mk ch w l r) = [(ch, [])] := by
  simp [pathList, hl]

theorem pathList_inner (ch : Char) (w : Int) (l r : Node)
    (hl : (l.isNull && r.isNull) = false) :
    pathList (.mk ch w l r) = (pathList l).map (fun p => (p.1, '0' :: p.2)) ++
      (pathList r).map (fun p => (p.1, '1' :: p.2)) := by
  simp [pathList, hl]

theorem leafSymbols_inner (ch : Char) (w : Int) (l r : Node)
    (hl : (l.isNull && r.isNull) = false) :
    leafSymbols (.mk ch w l r) = leafSymbols l ++ leafSymbols r := by
  simp [leafSymbols, pathList_inner ch w l r hl, List.map_map, Function.comp_def]

theorem pathList_ne_nil (n : Node) (h : isStrict n = true) : pathList n ≠ [] := by
  induction n with
  | nullptr => simp [isStrict] at h
  | mk ch w l r ihl _ =>
    cases hl : (l.isNull && r.isNull) with
    | true => simp [pathList_leaf ch w l r hl]
    | false =>
      have hc := isStrict_children ch w l r h hl
      rw [pathList_inner ch w l r hl]
      simp [ihl hc.1]

/-- In an inner node of a strict tree no leaf has the empty path. -/
theorem pathList_inner_ne_nil (ch : Char) (w : Int) (l r : Node)
    (hl : (l.isNull && r.isNull) = false) (c : Char) (p : List Char)
    (hp : (c, p) ∈ pathList (.mk ch w l r)) : p ≠ [] := by
  rw [pathList_inner ch w l r hl] at hp
  simp only [List.mem_append, List.mem_map, Prod.mk.injEq] at hp
  rcases hp with ⟨a, _, _, h2⟩ | ⟨a, _, _, h2⟩ <;> (rw [← h2]; simp)

/-- On a strict tree `encodeRecursion` returns, having assigned every leaf its
path behind `currentCode`, from left to right. -/
theorem encodeRecursion_eq (n : Node) (h : isStrict n = true) (code : List Char)
    (m : UMap Char (List Char)) :
    encodeRecursion n code m =
      .ok ((pathList n).foldl (fun m p => umapAssign m p.1 (code ++ p.2)) m) := by
  induction n generalizing code m with
  | nullptr => simp [isStrict] at h
  | mk ch w l r ihl ihr =>
    cases hl : (l.isNull && r.isNull) with
    | true => simp [encodeRecursion, hl, pathList_leaf ch w l r hl]
    | false =>
      have hc := isStrict_children ch w l r h hl
      rw [pathList_inner ch w l r hl]
      simp only [encodeRecursion, hl, Bool.false_eq_true, if_false, ihl hc.1, ihr hc.2,
        Outcome.bind, List.foldl_append, List.foldl_map, List.append_assoc,
        List.singleton_append]

/-- On a strict tree with distinct leaf symbols the code table is the list of
the leaves with their paths. -/
theorem encodeChars_eq (root : Node) (h : isStrict root = true)
    (hnd : (leafSymbols root).Nodup) : encodeChars root = .ok (pathList root) := by
  rw [encodeChars, encodeRecursion_eq root h]
  have := foldl_umapAssign (fun p : Char × List Char => p.1) (fun p => [] ++ p.2)
    (pathList root) [] hnd (by simp)
  rw [this]
  simp

theorem pathList_pairwise (n : Node) :
    (pathList n).Pairwise (fun a b => Unrelated a.2 b.2) := by
  induction n with
  | nullptr => simp [pathList]
  | mk ch w l r ihl ihr =>
    cases hl : (l.isNull && r.isNull) with
    | true => simp [pathList_leaf ch w l r hl]
    | false =>
      rw [pathList_inner ch w l r hl, List.pairwise_append]
      refine ⟨?_, ?_, ?_⟩
      · rw [List.pairwise_map]
        refine ihl.imp ?_
        intro a b hab
        simpa [Unrelated, List.cons_prefix_cons] using hab
      · rw [List.pairwise_map]
        refine ihr.imp ?_
        intro a b hab
        simpa [Unrelated, List.cons_prefix_cons] using hab
      · intro a ha b hb
        simp only [List.mem_map] at ha hb
        obtain ⟨a0, _, rfl⟩ := ha
        obtain ⟨b0, _, rfl⟩ := hb
        simp [Unrelated, List.cons_prefix_cons]

/-- Two leaves of a tree whose paths are related by the starts-with relation
are the same leaf. -/
theorem pathList_related_eq (n : Node) (a b : Char × List Char)
    (ha : a ∈ pathList n) (hb : b ∈ pathList n) (h : a.2 <+: b.2) : a = b := by
  by_contra hne
  have hsymm : Symmetric (fun a b : Char × List Char => Unrelated a.2 b.2) :=
    fun x y hxy => ⟨hxy.2, hxy.1⟩
  exact ((pathList_pairwise n).forall hsymm ha hb hne).1 h

theorem pathList_snd_nodup (n : Node) : ((pathList n).map Prod.snd).Nodup := by
  rw [List.Nodup, List.pairwise_map]
  refine (pathList_pairwise n).imp ?_
  intro a b hab e
  exact hab.1 (e ▸ List.prefix_refl _)

/-! ## The tree-walk decoder -/

/-- From an inner node of a strict tree, the bits of the path of a leaf take
the walk to that leaf: its symbol is written and the walk is back at the root. -/
theorem decodeWithTreeLoop_code (root n : Node) (hn : isStrict n = true)
    (hin : n.isLeaf = false) (c : Char) (p : List Char) (hp : (c, p) ∈ pathList n)
    (rest res : List Char) :
    decodeWithTreeLoop root (p ++ rest) n res =
      decodeWithTreeLoop root rest root (res ++ [c]) := by
  induction n generalizing p with
  | nullptr => simp [isStrict] at hn
  | mk ch w l r ihl ihr =>
    have hl : (l.isNull && r.isNull) = false := hin
    have hc := isStrict_children ch w l r hn hl
    rw [pathList_inner ch w l r hl] at hp
    simp only [List.mem_append, List.mem_map, Prod.mk.injEq] at hp
    rcases hp with ⟨a, ha, hac, hap⟩ | ⟨a, ha, hac, hap⟩
    · subst hap
      cases l with
      | nullptr => simp [isStrict] at hc
      | mk ch2 w2 l2 r2 =>
        cases hl2 : (l2.isNull && r2.isNull) with
        | true =>
          rw [pathList_leaf ch2 w2 l2 r2 hl2] at ha
          simp only [List.mem_singleton] at ha
          subst ha
          simp only at hac
          subst hac
          simp [decodeWithTreeLoop, hl2]
        | false =>
          have := ihl hc.1 hl2 a.2 (by rw [← hac]; exact ha)
          simpa [decodeWithTreeLoop, hl2] using this
    · subst hap
      cases r with
      | nullptr => simp [isStrict] at hc
      | mk ch2 w2 l2 r2 =>
        cases hl2 : (l2.isNull && r2.isNull) with
        | true =>
          rw [pathList_leaf ch2 w2 l2 r2 hl2] at ha
          simp only [List.mem_singleton] at ha
          subst ha
          simp only at hac
          subst hac
          simp [decodeWithTreeLoop, hl2]
        | false =>
          have := ihr hc.2 hl2 a.2 (by rw [← hac]; exact ha)
          simpa [decodeWithTreeLoop, hl2] using this

/-- From an inner node of a strict tree, bits that stop before the end of the
path of a leaf leave the output as it was: the walk ends without an error. -/
theorem decodeWithTreeLoop_partial (root n : Node) (hn : isStrict n = true)
    (hin : n.isLeaf = false) (c : Char) (p q : List Char) (hq : q ≠ [])
    (hp : (c, p ++ q) ∈ pathList n) (res : List Char) :
    decodeWithTreeLoop root p n res = .ok res := by
  induction n generalizing p with
  | nullptr => simp [isStrict] at hn
  | mk ch w l r ihl ihr =>
    have hl : (l.isNull && r.isNull) = false := hin
    have hc := isStrict_children ch w l r hn hl
    cases p with
    | nil => simp [decodeWithTreeLoop]
    | cons b p =>
      rw [pathList_inner ch w l r hl] at hp
      simp only [List.mem_append, List.mem_map, Prod.mk.injEq, List.cons_append,
        List.cons.injEq] at hp
      rcases hp with ⟨a, ha, hac, hb, hap⟩ | ⟨a, ha, hac, hb, hap⟩
      · subst hb
        cases l with
        | nullptr => simp [isStrict] at hc
        | mk ch2 w2 l2 r2 =>
          cases hl2 : (l2.isNull && r2.isNull) with
          | true =>
            rw [pathList_leaf ch2 w2 l2 r2 hl2] at ha
            simp only [List.mem_singleton] at ha
            subst ha
            simp at hap
            exact absurd hap.2 hq
          | false =>
            have := ihl hc.1 hl2 p (by rw [← hap, ← hac]; exact ha)
            simpa [decodeWithTreeLoop, hl2] using this
      · subst hb
        cases r with
        | nullptr => simp [isStrict] at hc
        | mk ch2 w2 l2 r2 =>
          cases hl2 : (l2.isNull && r2.isNull) with
          | true =>
            rw [pathList_leaf ch2 w2 l2 r2 hl2] at ha
            simp only [List.mem_singleton] at ha
            subst ha
            simp at hap
            exact absurd hap.2 hq
          | false =>
            have := ihr hc.2 hl2 p (by rw [← hap, ← hac]; exact ha)
            simpa [decodeWithTreeLoop, hl2] using this

/-- With distinct leaf symbols, the code of a leaf symbol in the table of the
leaves is the path of its leaf. -/
theorem codeOf_pathList (root : Node) (hnd : (leafSymbols root).Nodup) (c : Char)
    (hc : c ∈ leafSymbols root) :
    (c, codeOf (pathList root) c) ∈ pathList root ∧
      umapFind (pathList root) c = some (codeOf (pathList root) c) := by
  simp only [leafSymbols, List.mem_map] at hc
  obtain ⟨⟨c0, p⟩, hmem, rfl⟩ := hc
  have hf := umapFind_of_mem (pathList root) c0 p hnd hmem
  simp [codeOf, hf, hmem]

theorem concatCodes_cons (table : UMap Char (List Char)) (c : Char) (w : List Char) :
    concatCodes table (c :: w) = codeOf table c ++ concatCodes table w := by
  simp [concatCodes]

/-- The tree walk over the codes of a text of leaf symbols writes the text and
is back at the root. -/
theorem decodeWithTreeLoop_text (root : Node) (hs : isStrict root = true)
    (hin : root.isLeaf = false) (hnd : (leafSymbols root).Nodup) (w : List Char)
    (hw : ∀ c ∈ w, c ∈ leafSymbols root) (rest res : List Char) :
    decodeWithTreeLoop root (concatCodes (pathList root) w ++ rest) root res =
      decodeWithTreeLoop root rest root (res ++ w) := by
  induction w generalizing res with
  | nil => simp [concatCodes]
  | cons c w ih =>
    have hc := (codeOf_pathList root hnd c (hw c (List.mem_cons_self _ _))).1
    rw [concatCodes_cons, List.append_assoc,
      decodeWithTreeLoop_code root root hs hin c _ hc, ih]
    · simp
    · exact fun d hd => hw d (List.mem_cons_of_mem _ hd)

/-! ## The map-lookup decoder -/

/-- With distinct codes, the inverted table pairs every code with its
symbol. -/
theorem invertCodeMap_eq (codeMap : UMap Char (List Char))
    (hnd : (codeMap.map Prod.snd).Nodup) :
    invertCodeMap codeMap = codeMap.map (fun p => (p.2, p.1)) := by
  have := foldl_umapAssign (fun p : Char × List Char => p.2) (fun p => p.1)
    codeMap [] hnd (by simp)
  simpa [invertCodeMap] using this

/-- The buffer grows bit by bit to a code that is the only entry of the
inverted table among its own non-empty beginnings: the symbol of the code is
written and the buffer is cleared. -/
theorem decodeWithMapLoop_code (dm : UMap (List Char) Char) (c : Char) (p : List Char)
    (hfind : umapFind dm p = some c)
    (hnone : ∀ x y : List Char, x ++ y = p → x ≠ [] → y ≠ [] → umapFind dm x = none)
    (b a : List Char) (hab : a ++ b = p) (hb : b ≠ []) (rest res : List Char) :
    decodeWithMapLoop dm (b ++ rest) a res =
      decodeWithMapLoop dm rest [] (res ++ [c]) := by
  induction b generalizing a with
  | nil => exact absurd rfl hb
  | cons bit b ih =>
    cases b with
    | nil =>
      rw [← hab] at hfind
      simp [decodeWithMapLoop, umapCount, umapAt, hfind, Outcome.bind]
    | cons bit2 b =>
      have hx : umapFind dm (a ++ [bit]) = none :=
        hnone (a ++ [bit]) (bit2 :: b) (by simpa using hab) (by simp) (by simp)
      have := ih (a ++ [bit]) (by simpa using hab) (by simp)
      simpa [decodeWithMapLoop, umapCount, hx] using this

/-- The buffer stays short of a code none of whose non-empty beginnings is an
entry of the inverted table: nothing is written, and the loop ends without an
error. -/
theorem decodeWithMapLoop_partial (dm : UMap (List Char) Char) (p : List Char)
    (hnone : ∀ x y : List Char, x ++ y = p → x ≠ [] → y ≠ [] → umapFind dm x = none)
    (b a q : List Char) (hab : a ++ b ++ q = p) (hq : q ≠ []) (res : List Char) :
    decodeWithMapLoop dm b a res = .ok res := by
  induction b generalizing a with
  | nil => simp [decodeWithMapLoop]
  | cons bit b ih =>
    have hx : umapFind dm (a ++ [bit]) = none :=
      hnone (a ++ [bit]) (b ++ q) (by simpa using hab) (by simp) (by simp [hq])
    have := ih (a ++ [bit]) (by simpa using hab)
    simpa [decodeWithMapLoop, umapCount, hx] using this

/-- In the inverted table of the leaves of a tree, the path of a leaf is mapped
to the symbol of the leaf and no shorter non-empty beginning of it is a key. -/
theorem invert_pathList (root : Node) (c : Char) (p : List Char)
    (hp : (c, p) ∈ pathList root) :
    umapFind (invertCodeMap (pathList root)) p = some c ∧
      ∀ x y : List Char, x ++ y = p → x ≠ [] → y ≠ [] →
        umapFind (invertCodeMap (pathList root)) x = none := by
  have hinv := invertCodeMap_eq (pathList root) (pathList_snd_nodup root)
  have hkeys : ((invertCodeMap (pathList root)).map Prod.fst) =
      (pathList root).map Prod.snd := by
    rw [hinv]
    simp [List.map_map, Function.comp_def]
  constructor
  · apply umapFind_of_mem
    · rw [hkeys]
      exact pathList_snd_nodup root
    · rw [hinv]
      exact List.mem_map.mpr ⟨(c, p), hp, rfl⟩
  · intro x y hxy _ hy
    rw [umapFind_eq_none, hkeys]
    intro hmem
    obtain ⟨⟨c2, x2⟩, hmem2, hx2⟩ := List.mem_map.mp hmem
    simp only at hx2
    subst hx2
    have := pathList_related_eq root (c2, x2) (c, p) hmem2 hp ⟨y, hxy⟩
    injection this with _ h2
    rw [h2] at hxy
    exact hy (by simpa using hxy)

/-- The map-lookup loop over the codes of a text of leaf symbols writes the
text and ends with an empty buffer. -/
theorem decodeWithMapLoop_text (root : Node) (hin : root.isLeaf = false)
    (hnd : (leafSymbols root).Nodup) (w : List Char)
    (hw : ∀ c ∈ w, c ∈ leafSymbols root) (rest res : List Char) :
    decodeWithMapLoop (invertCodeMap (pathList root))
        (concatCodes (pathList root) w ++ rest) [] res =
      decodeWithMapLoop (invertCodeMap (pathList root)) rest [] (res ++ w) := by
  induction w generalizing res with
  | nil => simp [concatCodes]
  | cons c w ih =>
    have hc := (codeOf_pathList root hnd c (hw c (List.mem_cons_self _ _))).1
    have hinv := invert_pathList root c _ hc
    have hne : codeOf (pathList root) c ≠ [] := by
      cases root with
      | nullptr => simp [pathList] at hc
      | mk ch w0 l r => exact pathList_inner_ne_nil ch w0 l r hin c _ hc
    rw [concatCodes_cons, List.append_assoc,
      decodeWithMapLoop_code _ c _ hinv.1 hinv.2 _ [] (by simp) hne, ih]
    · simp
    · exact fun d hd => hw d (List.mem_cons_of_mem _ hd)

/-! ## The frequency table -/

theorem umapAssign_keys {K V : Type} [DecidableEq K] (m : UMap K V) (k : K) (v : V) :
    (umapAssign m k v).map Prod.fst =
      if k ∈ m.map Prod.fst then m.map Prod.fst else m.map Prod.fst ++ [k] := by
  induction m with
  | nil => simp [umapAssign]
  | cons p m ih =>
    obtain ⟨k0, v0⟩ := p
    by_cases hk : k0 = k
    · simp [umapAssign, hk]
    · have hk2 : ¬ k = k0 := fun e => hk e.symm
      simp only [umapAssign, hk, if_false, List.map_cons, ih, List.mem_cons, hk2, false_or]
      split <;> simp

/-- The keys of a map filled by assignments, one for each element of a list,
are distinct and are the old keys together with the keys assigned. -/
theorem foldl_assign_keys {K V : Type} [DecidableEq K] (val : UMap K V → K → V)
    (text : List K) (m : UMap K V) (hm : (m.map Prod.fst).Nodup) :
    ((text.foldl (fun m k => umapAssign m k (val m k)) m).map Prod.fst).Nodup ∧
      ∀ x, x ∈ (text.foldl (fun m k => umapAssign m k (val m k)) m).map Prod.fst ↔
        x ∈ m.map Prod.fst ∨ x ∈ text := by
  induction text generalizing m with
  | nil => simp [hm]
  | cons k text ih =>
    have hm2 : ((umapAssign m k (val m k)).map Prod.fst).Nodup := by
      rw [umapAssign_keys]
      split
      · exact hm
      · rename_i hk
        exact List.Nodup.append hm (List.nodup_singleton k) (by simpa using hk)
    have := ih (umapAssign m k (val m k)) hm2
    refine ⟨this.1, ?_⟩
    intro x
    rw [List.foldl_cons, this.2 x, umapAssign_keys]
    split
    · rename_i hk
      constructor
      · rintro (h | h)
        · exact Or.inl h
        · exact Or.inr (List.mem_cons_of_mem _ h)
      · rintro (h | h)
        · exact Or.inl h
        · rcases List.mem_cons.mp h with e | h
          · exact Or.inl (e ▸ hk)
          · exact Or.inr h
    · simp only [List.mem_append, List.mem_singleton, List.mem_cons]
      tauto

/-- The keys of the frequency table are distinct. -/
theorem getCharWeightMap_keys_nodup (text : List Char) :
    ((getCharWeightMap text).map Prod.fst).Nodup :=
  (foldl_assign_keys (fun m ch => wrapInt ((umapFind m ch).getD 0 + 1)) text []
    (by simp)).1

/-- The keys of the frequency table are the symbols of the text. -/
theorem getCharWeightMap_keys_mem (text : List Char) (c : Char) :
    c ∈ (getCharWeightMap text).map Prod.fst ↔ c ∈ text := by
  have := (foldl_assign_keys (fun m ch => wrapInt ((umapFind m ch).getD 0 + 1)) text []
    (by simp)).2 c
  simpa [getCharWeightMap] using this

/-! ## The priority queue -/

theorem perm_eraseIdx {α : Type} (l : List α) (i : Nat) (x : α) (h : l[i]? = some x) :
    l.Perm (x :: l.eraseIdx i) := by
  induction l generalizing i with
  | nil => simp at h
  | cons a l ih =>
    cases i with
    | zero =>
      simp at h
      subst h
      simp
    | succ i =>
      simp at h
      exact ((ih i h).cons a).trans (List.Perm.swap x a _)

theorem pqTopIdx_lt (tie : List Node → Nat) (q : List Node) (hq : q ≠ []) :
    pqTopIdx tie q < q.length := by
  have hpos : 0 < q.length := List.length_pos.mpr hq
  unfold pqTopIdx
  rw [List.getD_eq_getElem?_getD]
  cases h : (pqCandidates q)[tie q % (pqCandidates q).length]? with
  | none => simpa using hpos
  | some i =>
    have hi : i ∈ pqCandidates q := List.getElem?_mem h
    have := (List.mem_filter.mp hi).1
    simpa using this

theorem exists_least (q : List Node) (hq : q ≠ []) :
    ∃ x ∈ q, ∀ y ∈ q, x.weight ≤ y.weight := by
  induction q with
  | nil => exact absurd rfl hq
  | cons a q ih =>
    cases q with
    | nil => exact ⟨a, by simp, by simp⟩
    | cons b q =>
      obtain ⟨x, hx, hmin⟩ := ih (by simp)
      by_cases hax : a.weight ≤ x.weight
      · refine ⟨a, by simp, ?_⟩
        intro y hy
        rcases List.mem_cons.mp hy with e | hy
        · rw [e]
        · exact le_trans hax (hmin y hy)
      · refine ⟨x, List.mem_cons_of_mem _ hx, ?_⟩
        intro y hy
        rcases List.mem_cons.mp hy with e | hy
        · rw [e]
          omega
        · exact hmin y hy

theorem mem_pqCandidates (q : List Node) (i : Nat) :
    i ∈ pqCandidates q ↔ ∃ h : i < q.length, ∀ y ∈ q, q[i].weight ≤ y.weight := by
  simp only [pqCandidates, List.mem_filter, List.mem_range, List.all_eq_true,
    CompareNodes, Bool.not_eq_true', decide_eq_false_iff_not, not_lt]
  constructor
  · rintro ⟨h, hall⟩
    refine ⟨h, ?_⟩
    intro y hy
    have := hall y hy
    rwa [List.getD_eq_getElem q Node.nullptr h] at this
  · rintro ⟨h, hall⟩
    refine ⟨h, ?_⟩
    intro y hy
    rw [List.getD_eq_getElem q Node.nullptr h]
    exact hall y hy

theorem pqCandidates_ne_nil (q : List Node) (hq : q ≠ []) : pqCandidates q ≠ [] := by
  obtain ⟨x, hx, hmin⟩ := exists_least q hq
  obtain ⟨i, hi, rfl⟩ := List.getElem_of_mem hx
  exact List.ne_nil_of_mem ((mem_pqCandidates q i).mpr ⟨hi, hmin⟩)

theorem pqTopIdx_mem (tie : List Node → Nat) (q : List Node) (hq : q ≠ []) :
    pqTopIdx tie q ∈ pqCandidates q := by
  have hpos : 0 < (pqCandidates q).length :=
    List.length_pos.mpr (pqCandidates_ne_nil q hq)
  have hlt : tie q % (pqCandidates q).length < (pqCandidates q).length :=
    Nat.mod_lt _ hpos
  unfold pqTopIdx
  rw [List.getD_eq_getElem _ 0 hlt]
  exact List.getElem_mem hlt

/-- On a non-empty queue `top()` returns an element of least weight and `pop()`
leaves the other elements. -/
theorem pqTop_spec (tie : List Node → Nat) (q : List Node) (hq : q ≠ []) :
    ∃ x, pqTop tie q = .ok x ∧ q.Perm (x :: pqPop tie q) ∧
      ∀ y ∈ q, x.weight ≤ y.weight := by
  obtain ⟨hlt, hmin⟩ := (mem_pqCandidates q _).mp (pqTopIdx_mem tie q hq)
  have hget : q[pqTopIdx tie q]? = some (q[pqTopIdx tie q]) := List.getElem?_eq_getElem hlt
  refine ⟨q[pqTopIdx tie q], ?_, perm_eraseIdx q _ _ hget, hmin⟩
  simp [pqTop, hget]

/-- One pass through the loop body, on a queue of two nodes or more: a node
`x` of least weight and then a node `y` of least weight among the others leave
the queue, and their parent enters it. -/
theorem mergeStep_spec (tie : List Node → Nat) (q : List Node) (hq : 1 < q.length) :
    ∃ x y q2, q.Perm (x :: y :: q2) ∧ (∀ z ∈ q, x.weight ≤ z.weight) ∧
      (∀ z ∈ y :: q2, y.weight ≤ z.weight) ∧
      mergeStep tie q = .ok (pqPush q2 (.mk '#' (wrapInt (x.weight + y.weight)) x y)) := by
  have hne : q ≠ [] := by
    intro e
    simp [e] at hq
  obtain ⟨x, hx, hpx, hminx⟩ := pqTop_spec tie q hne
  have hlen : q.length = (pqPop tie q).length + 1 := by simpa using hpx.length_eq
  have hne1 : pqPop tie q ≠ [] := by
    intro e
    rw [e] at hlen
    simp at hlen
    omega
  obtain ⟨y, hy, hpy, hminy⟩ := pqTop_spec tie (pqPop tie q) hne1
  refine ⟨x, y, pqPop tie (pqPop tie q), hpx.trans (hpy.cons x), hminx, ?_, ?_⟩
  · intro z hz
    exact hminy z (hpy.symm.subset hz)
  · simp [mergeStep, hx, hy, Outcome.bind]

/-- The loop ends, within the bound that `makeHuffmanTree` gives it, with one
node in the queue; a property of the queue that every pass through the loop
body keeps holds of the final queue. -/
theorem mergeLoop_invariant (tie : List Node → Nat) (Inv : List Node → Prop)
    (hstep : ∀ q x y q2, Inv q → q.Perm (x :: y :: q2) →
      (∀ z ∈ q, x.weight ≤ z.weight) → (∀ z ∈ y :: q2, y.weight ≤ z.weight) →
      Inv (pqPush q2 (.mk '#' (wrapInt (x.weight + y.weight)) x y)))
    (fuel : Nat) (q : List Node) (hq : q ≠ []) (hfuel : q.length ≤ fuel) (hinv : Inv q) :
    ∃ root, mergeLoop tie fuel q = .ok [root] ∧ Inv [root] := by
  induction fuel generalizing q with
  | zero =>
    have : q = [] := List.length_eq_zero.mp (Nat.le_zero.mp hfuel)
    exact absurd this hq
  | succ fuel ih =>
    by_cases h1 : 1 < q.length
    · obtain ⟨x, y, q2, hperm, hminx, hminy, hms⟩ := mergeStep_spec tie q h1
      have hlen : q.length = q2.length + 2 := by simpa using hperm.length_eq
      have := ih (pqPush q2 (.mk '#' (wrapInt (x.weight + y.weight)) x y))
        (by simp [pqPush]) (by simp [pqPush]; omega)
        (hstep q x y q2 hinv hperm hminx hminy)
      simpa [mergeLoop, h1, hms, Outcome.bind] using this
    · have hlen : q.length = 1 := by
        have := List.length_pos.mpr hq
        omega
      obtain ⟨root, hroot⟩ := List.length_eq_one.mp hlen
      subst hroot
      exact ⟨root, by simp [mergeLoop], hinv⟩

/-- The loop of `makeHuffmanTree` ends with one node in the queue, within the
bound on the number of its iterations. -/
theorem mergeLoop_terminates (tie : List Node → Nat) (q : List Node) (hq : q ≠ []) :
    ∃ root, mergeLoop tie q.length q = .ok [root] := by
  obtain ⟨root, hroot, _⟩ := mergeLoop_invariant tie (fun _ => True)
    (fun _ _ _ _ _ _ _ _ => trivial) q.length q hq (Nat.le_refl _) trivial
  exact ⟨root, hroot⟩

theorem pqTop_singleton (tie : List Node → Nat) (x : Node) : pqTop tie [x] = .ok x := by
  obtain ⟨y, hy, hperm, _⟩ := pqTop_spec tie [x] (by simp)
  have hmem : x ∈ y :: pqPop tie [x] := hperm.subset (List.mem_singleton_self x)
  have hlen : 1 = (pqPop tie [x]).length + 1 := hperm.length_eq
  have hnil : pqPop tie [x] = [] := List.length_eq_zero.mp (by omega)
  rw [hnil, List.mem_singleton] at hmem
  rw [hy, hmem]

/-! ## The tree builder -/

theorem foldl_pqPush {A : Type} (f : A → Node) (l : List A) (acc : List Node) :
    l.foldl (fun q p => pqPush q (f p)) acc = acc ++ l.map f := by
  induction l generalizing acc with
  | nil => simp
  | cons a l ih =>
    simp only [List.foldl_cons, ih]
    simp [pqPush]

/-- The queue before the merge loop holds one leaf for each pair of the
frequency table. -/
theorem initialQueue_eq (text : List Char) :
    initialQueue text =
      (getCharWeightMap text).map (fun p => Node.mk p.1 p.2 .nullptr .nullptr) := by
  simp [initialQueue, foldl_pqPush (fun p : Char × Int => Node.mk p.1 p.2 .nullptr .nullptr)]

theorem initialQueue_ne_nil (text : List Char) (h : text ≠ []) : initialQueue text ≠ [] := by
  obtain ⟨c, hc⟩ := List.exists_mem_of_ne_nil text h
  have := (getCharWeightMap_keys_mem text c).mpr hc
  rw [initialQueue_eq]
  intro e
  rw [List.map_eq_nil_iff] at e
  simp [e] at this

theorem flatMap_leaves (m : UMap Char Int) :
    (m.map (fun p => Node.mk p.1 p.2 .nullptr .nullptr)).flatMap leafSymbols =
      m.map Prod.fst := by
  induction m with
  | nil => rfl
  | cons p m ih =>
    simp only [List.map_cons, List.flatMap_cons, ih]
    simp [leafSymbols, pathList, Node.isNull]

/-- The parent that the loop body makes of two strict trees is an inner node
of a strict tree, with the leaves of the two. -/
theorem parent_strict (w : Int) (x y : Node) (hx : isStrict x = true)
    (hy : isStrict y = true) :
    isStrict (.mk '#' w x y) = true ∧ (Node.mk '#' w x y).isLeaf = false ∧
      leafSymbols (.mk '#' w x y) = leafSymbols x ++ leafSymbols y := by
  have hnx := isStrict_ne_null x hx
  have hl : (x.isNull && y.isNull) = false := by simp [hnx]
  exact ⟨by simp [isStrict, hx, hy], hl, leafSymbols_inner '#' w x y hl⟩

theorem QueueInv_step (keys : List Char) (q : List Node) (x y : Node) (q2 : List Node)
    (hinv : QueueInv keys q) (hperm : q.Perm (x :: y :: q2)) :
    QueueInv keys (pqPush q2 (.mk '#' (wrapInt (x.weight + y.weight)) x y)) := by
  have hx : isStrict x = true := hinv.1 x (hperm.symm.subset (by simp))
  have hy : isStrict y = true := hinv.1 y (hperm.symm.subset (by simp))
  have hpar := parent_strict (wrapInt (x.weight + y.weight)) x y hx hy
  constructor
  · intro n hn
    simp only [pqPush, List.mem_append, List.mem_singleton] at hn
    rcases hn with hn | hn
    · exact hinv.1 n (hperm.symm.subset (by simp [hn]))
    · rw [hn]
      exact hpar.1
  · have h1 : (q.flatMap leafSymbols).Perm ((x :: y :: q2).flatMap leafSymbols) :=
      List.Perm.flatMap_right leafSymbols hperm
    refine List.Perm.trans ?_ (h1.symm.trans hinv.2)
    simp only [pqPush, List.flatMap_append, List.flatMap_cons, List.flatMap_nil,
      List.append_nil, hpar.2.2]
    rw [← List.append_assoc (leafSymbols x)]
    exact List.perm_append_comm

/-- For a non-empty text `makeHuffmanTree` returns the root of a strict binary
tree whose leaves carry the symbols of the text, each at one leaf. -/
theorem makeHuffmanTree_spec (tie : List Node → Nat) (text : List Char) (h : text ≠ []) :
    ∃ root, makeHuffmanTree tie text = .ok root ∧ isStrict root = true ∧
      (leafSymbols root).Nodup ∧ ∀ c, c ∈ leafSymbols root ↔ c ∈ text := by
  have hinit : QueueInv ((getCharWeightMap text).map Prod.fst) (initialQueue text) := by
    rw [initialQueue_eq]
    constructor
    · intro n hn
      obtain ⟨p, _, rfl⟩ := List.mem_map.mp hn
      simp [isStrict, Node.isNull]
    · rw [flatMap_leaves]
  obtain ⟨root, hloop, hroot⟩ := mergeLoop_invariant tie
    (QueueInv ((getCharWeightMap text).map Prod.fst))
    (fun q x y q2 hinv hperm _ _ => QueueInv_step _ q x y q2 hinv hperm)
    (initialQueue text).length (initialQueue text) (initialQueue_ne_nil text h)
    (Nat.le_refl _) hinit
  have hperm : (leafSymbols root).Perm ((getCharWeightMap text).map Prod.fst) := by
    simpa using hroot.2
  refine ⟨root, ?_, hroot.1 root (List.mem_singleton_self root), ?_, ?_⟩
  · simp [makeHuffmanTree, hloop, Outcome.bind, pqTop_singleton]
  · exact hperm.nodup_iff.mpr (getCharWeightMap_keys_nodup text)
  · intro c
    rw [hperm.mem_iff, getCharWeightMap_keys_mem]

/-- A leaf carries one symbol: a tree with two different leaf symbols has an
inner node at its root. -/
theorem isLeaf_false_of_two (root : Node) (a b : Char) (ha : a ∈ leafSymbols root)
    (hb : b ∈ leafSymbols root) (hab : a ≠ b) : root.isLeaf = false := by
  cases root with
  | nullptr => rfl
  | mk ch w l r =>
    cases hl : (l.isNull && r.isNull) with
    | false => exact hl
    | true =>
      simp only [leafSymbols, pathList_leaf ch w l r hl, List.map_cons, List.map_nil,
        List.mem_singleton] at ha hb
      exact absurd (ha.trans hb.symm) hab

/-! ## Weights -/

theorem wrapInt_eq (z : Int) (h0 : 0 ≤ z) (h1 : z ≤ INT_MAX) : wrapInt z = z := by
  unfold wrapInt
  unfold INT_MAX at h1
  omega

theorem umapAssign_sum {K : Type} [DecidableEq K] (m : UMap K Int) (k : K) (v : Int) :
    ((umapAssign m k v).map Prod.snd).sum =
      (m.map Prod.snd).sum - (umapFind m k).getD 0 + v := by
  induction m with
  | nil => simp [umapAssign, umapFind]
  | cons p m ih =>
    obtain ⟨k0, v0⟩ := p
    by_cases hk : k0 = k
    · simp only [umapAssign, umapFind, hk, if_true, List.map_cons, List.sum_cons,
        Option.getD_some]
      omega
    · simp only [umapAssign, umapFind, hk, if_false, List.map_cons, List.sum_cons, ih]
      omega

theorem umapAssign_values {K : Type} [DecidableEq K] (m : UMap K Int) (k : K) (v x : Int)
    (hx : x ∈ (umapAssign m k v).map Prod.snd) : x = v ∨ x ∈ m.map Prod.snd := by
  induction m with
  | nil => simpa [umapAssign] using hx
  | cons p m ih =>
    obtain ⟨k0, v0⟩ := p
    by_cases hk : k0 = k
    · simp only [umapAssign, hk, if_true, List.map_cons, List.mem_cons] at hx
      rcases hx with hx | hx
      · exact Or.inl hx
      · exact Or.inr (List.mem_cons_of_mem _ hx)
    · simp only [umapAssign, hk, if_false, List.map_cons, List.mem_cons] at hx
      rcases hx with hx | hx
      · exact Or.inr (by simp [hx])
      · rcases ih hx with h | h
        · exact Or.inl h
        · exact Or.inr (List.mem_cons_of_mem _ h)

theorem umapFind_le_sum {K : Type} [DecidableEq K] (m : UMap K Int) (k : K)
    (hpos : ∀ x ∈ m.map Prod.snd, 0 ≤ x) :
    0 ≤ (umapFind m k).getD 0 ∧ (umapFind m k).getD 0 ≤ (m.map Prod.snd).sum := by
  induction m with
  | nil => simp [umapFind]
  | cons p m ih =>
    obtain ⟨k0, v0⟩ := p
    have h0 : 0 ≤ v0 := hpos v0 (by simp)
    have hrest : ∀ x ∈ m.map Prod.snd, 0 ≤ x :=
      fun x hx => hpos x (List.mem_cons_of_mem _ hx)
    have hsum : 0 ≤ (m.map Prod.snd).sum := List.sum_nonneg hrest
    have := ih hrest
    by_cases hk : k0 = k
    · simp only [umapFind, hk, if_true, Option.getD_some, List.map_cons, List.sum_cons]
      omega
    · simp only [umapFind, hk, if_false, List.map_cons, List.sum_cons]
      omega

/-- Counting the symbols of a text into a table: while the total stays within
`int`, every count stays positive and the counts grow by the length of the
text. -/
theorem foldl_count_sum (text : List Char) (m : UMap Char Int)
    (hpos : ∀ x ∈ m.map Prod.snd, 1 ≤ x)
    (hbound : (m.map Prod.snd).sum + text.length ≤ INT_MAX) :
    (∀ x ∈ ((text.foldl (fun m ch =>
        umapAssign m ch (wrapInt ((umapFind m ch).getD 0 + 1))) m).map Prod.snd), 1 ≤ x) ∧
      ((text.foldl (fun m ch =>
        umapAssign m ch (wrapInt ((umapFind m ch).getD 0 + 1))) m).map Prod.snd).sum =
        (m.map Prod.snd).sum + text.length := by
  induction text generalizing m with
  | nil => simpa using hpos
  | cons c text ih =>
    have hnn : ∀ x ∈ m.map Prod.snd, 0 ≤ x := fun x hx => by
      have := hpos x hx
      omega
    have hle := umapFind_le_sum m c hnn
    simp only [List.length_cons, Nat.cast_add, Nat.cast_one] at hbound
    have hw : wrapInt ((umapFind m c).getD 0 + 1) = (umapFind m c).getD 0 + 1 :=
      wrapInt_eq _ (by omega) (by omega)
    have hsum := umapAssign_sum m c ((umapFind m c).getD 0 + 1)
    have := ih (umapAssign m c ((umapFind m c).getD 0 + 1))
      (by
        intro x hx
        rcases umapAssign_values m c _ x hx with e | hx
        · omega
        · exact hpos x hx)
      (by rw [hsum]; omega)
    simp only [List.foldl_cons, hw, List.length_cons, Nat.cast_add, Nat.cast_one]
    refine ⟨this.1, ?_⟩
    rw [this.2, hsum]
    omega

/-- For a text whose length is within `int`, the frequencies are positive and
add up to the length of the text. -/
theorem getCharWeightMap_sum (text : List Char) (hlen : (text.length : Int) ≤ INT_MAX) :
    (∀ x ∈ (getCharWeightMap text).map Prod.snd, 1 ≤ x) ∧
      ((getCharWeightMap text).map Prod.snd).sum = text.length := by
  have := foldl_count_sum text [] (by simp) (by simpa using hlen)
  simpa [getCharWeightMap] using this

theorem WeightInv_step (total : Int) (htotal : total ≤ INT_MAX) (q : List Node)
    (x y : Node) (q2 : List Node) (hinv : WeightInv total q)
    (hperm : q.Perm (x :: y :: q2)) :
    WeightInv total (pqPush q2 (.mk '#' (wrapInt (x.weight + y.weight)) x y)) := by
  have hx : 0 ≤ x.weight := hinv.1 x (hperm.symm.subset (by simp))
  have hy : 0 ≤ y.weight := hinv.1 y (hperm.symm.subset (by simp))
  have hq2 : ∀ n ∈ q2, 0 ≤ n.weight :=
    fun n hn => hinv.1 n (hperm.symm.subset (by simp [hn]))
  have hsum2 : 0 ≤ (q2.map Node.weight).sum := by
    apply List.sum_nonneg
    intro z hz
    obtain ⟨n, hn, rfl⟩ := List.mem_map.mp hz
    exact hq2 n hn
  have hsum : (q.map Node.weight).sum =
      x.weight + (y.weight + (q2.map Node.weight).sum) := by
    rw [(hperm.map Node.weight).sum_eq]
    simp
  have htot := hinv.2
  have hw : wrapInt (x.weight + y.weight) = x.weight + y.weight :=
    wrapInt_eq _ (by omega) (by omega)
  have hpar : (Node.mk '#' (wrapInt (x.weight + y.weight)) x y).weight =
      x.weight + y.weight := hw
  constructor
  · intro n hn
    simp only [pqPush, List.mem_append, List.mem_singleton] at hn
    rcases hn with hn | hn
    · exact hq2 n hn
    · rw [hn, hpar]
      omega
  · simp only [pqPush, List.map_append, List.sum_append, List.map_cons, List.map_nil,
      List.sum_cons, List.sum_nil, hpar]
    omega

/-! ## The pipeline `makeHuffmanTree`, `encodeChars`, `encodeText` -/

/-- For a non-empty text the three stages return: the tree is strict with the
symbols of the text at its leaves, the code table lists the leaves with their
paths, and the stream is the concatenation of the codes. -/
theorem pipeline_spec (tie : List Node → Nat) (text : List Char) (h : text ≠ []) :
    ∃ root, makeHuffmanTree tie text = .ok root ∧ isStrict root = true ∧
      (leafSymbols root).Nodup ∧ (∀ c, c ∈ leafSymbols root ↔ c ∈ text) ∧
      encodeChars root = .ok (pathList root) ∧
      encodeText text (pathList root) = .ok (concatCodes (pathList root) text) := by
  obtain ⟨root, hroot, hs, hnd, hmem⟩ := makeHuffmanTree_spec tie text h
  refine ⟨root, hroot, hs, hnd, hmem, encodeChars_eq root hs hnd, ?_⟩
  have := encodeTextLoop_ok (pathList root) text [] (by
    intro c hc
    rw [(codeOf_pathList root hnd c ((hmem c).mpr hc)).2]
    rfl)
  simpa [encodeText] using this

theorem concatCodes_single (ch : Char) (text : List Char) :
    concatCodes [(ch, [])] text = [] := by
  induction text with
  | nil => rfl
  | cons c text ih =>
    rw [concatCodes_cons, ih]
    by_cases hc : ch = c <;> simp [codeOf, umapFind, hc]

/-- A tree of one leaf gives every text the empty stream. -/
theorem concatCodes_leaf (root : Node) (hs : isStrict root = true)
    (hleaf : root.isLeaf = true) (text : List Char) :
    concatCodes (pathList root) text = [] := by
  cases root with
  | nullptr => simp [isStrict] at hs
  | mk ch w l r =>
    rw [pathList_leaf ch w l r hleaf]
    exact concatCodes_single ch text

/-- With an inner node at the root, the tree walk over the codes of `w`
followed by a proper beginning `p` of a code returns `w`. -/
theorem decodeWithTree_codes_partial (root : Node) (hs : isStrict root = true)
    (hin : root.isLeaf = false) (hnd : (leafSymbols root).Nodup) (w : List Char)
    (hw : ∀ d ∈ w, d ∈ leafSymbols root) (c : Char) (p q : List Char)
    (hc : (c, p ++ q) ∈ pathList root) (hq : q ≠ []) :
    decodeWithTree root (concatCodes (pathList root) w ++ p) = .ok w := by
  rw [decodeWithTree, decodeWithTreeLoop_text root hs hin hnd w hw,
    decodeWithTreeLoop_partial root root hs hin c p q hq hc]
  simp

/-- With an inner node at the root, both decoders return the text whose codes
they are given. -/
theorem round_trip_inner (root : Node) (hs : isStrict root = true)
    (hin : root.isLeaf = false) (hnd : (leafSymbols root).Nodup) (w : List Char)
    (hw : ∀ d ∈ w, d ∈ leafSymbols root) :
    decodeWithTree root (concatCodes (pathList root) w) = .ok w ∧
      decodeWithMap (pathList root) (concatCodes (pathList root) w) = .ok w := by
  have h1 := decodeWithTreeLoop_text root hs hin hnd w hw [] []
  have h2 := decodeWithMapLoop_text root hin hnd w hw [] []
  simp only [List.append_nil, List.nil_append] at h1 h2
  constructor
  · rw [decodeWithTree, h1]
    simp [decodeWithTreeLoop]
  · rw [decodeWithMap, h2]
    simp [decodeWithMapLoop]

/-- A text with one leaf in the initial queue: `makeHuffmanTree` returns that
leaf, whatever the queue does. -/
theorem makeHuffmanTree_single (tie : List Node → Nat) (text : List Char) (x : Node)
    (h : initialQueue text = [x]) : makeHuffmanTree tie text = .ok x := by
  simp [makeHuffmanTree, h, mergeLoop, Outcome.bind, pqTop_singleton]

/-! ## Independence of the iteration order of a map -/

/-- Lookup does not depend on the order of the pairs. -/
theorem umapFind_perm {K V : Type} [DecidableEq K] (m m2 : UMap K V) (hp : m2.Perm m)
    (hnd : (m.map Prod.fst).Nodup) (k : K) : umapFind m2 k = umapFind m k := by
  have hp1 : (m2.map Prod.fst).Perm (m.map Prod.fst) := hp.map Prod.fst
  cases hv : umapFind m k with
  | none =>
    rw [umapFind_eq_none] at hv ⊢
    exact fun hk => hv (hp1.subset hk)
  | some v =>
    exact umapFind_of_mem m2 k v (hp1.nodup_iff.mpr hnd) (hp.symm.subset (umapFind_mem m k v hv))

theorem encodeTextLoop_congr (t t2 : UMap Char (List Char))
    (h : ∀ k, umapFind t2 k = umapFind t k) (text acc : List Char) :
    encodeTextLoop t2 text acc = encodeTextLoop t text acc := by
  induction text generalizing acc with
  | nil => rfl
  | cons c text ih => simp only [encodeTextLoop, umapAt, h, ih]

theorem decodeWithMapLoop_congr (dm dm2 : UMap (List Char) Char)
    (h : ∀ k, umapFind dm2 k = umapFind dm k) (s buf res : List Char) :
    decodeWithMapLoop dm2 s buf res = decodeWithMapLoop dm s buf res := by
  induction s generalizing buf res with
  | nil => rfl
  | cons b s ih => simp only [decodeWithMapLoop, umapCount, umapAt, h, ih]

/-- With distinct symbols and distinct codes, neither `encodeText` nor
`decodeWithMap` depends on the order in which the code table is iterated. -/
theorem codeMap_order (codes codes2 : UMap Char (List Char)) (hp : codes2.Perm codes)
    (hk : (codes.map Prod.fst).Nodup) (hv : (codes.map Prod.snd).Nodup)
    (text s : List Char) :
    encodeText text codes2 = encodeText text codes ∧
      decodeWithMap codes2 s = decodeWithMap codes s := by
  constructor
  · exact encodeTextLoop_congr codes codes2 (umapFind_perm codes codes2 hp hk) text []
  · have hv2 : (codes2.map Prod.snd).Nodup := (hp.map Prod.snd).nodup_iff.mpr hv
    apply decodeWithMapLoop_congr
    rw [invertCodeMap_eq codes hv, invertCodeMap_eq codes2 hv2]
    apply umapFind_perm
    · exact hp.map _
    · simpa [List.map_map, Function.comp_def] using hv

/-! ## The tree walk never fails below an inner root -/

theorem decodeWithTreeLoop_total (root : Node) (hs : isStrict root = true)
    (hin : root.isLeaf = false) (s : List Char) (n : Node) (hn : isStrict n = true)
    (hnin : n.isLeaf = false) (res : List Char) :
    ∃ r, decodeWithTreeLoop root s n res = .ok r := by
  induction s generalizing n res with
  | nil => exact ⟨res, by simp [decodeWithTreeLoop]⟩
  | cons b s ih =>
    cases n with
    | nullptr => simp [isStrict] at hn
    | mk ch w l r =>
      have hc := isStrict_children ch w l r hn hnin
      by_cases hb : b = '0'
      · cases l with
        | nullptr => simp [isStrict] at hc
        | mk ch2 w2 l2 r2 =>
          cases hl2 : (l2.isNull && r2.isNull) with
          | true => simpa [decodeWithTreeLoop, hb, hl2] using ih root hs hin (res ++ [ch2])
          | false =>
            simpa [decodeWithTreeLoop, hb, hl2] using ih (.mk ch2 w2 l2 r2) hc.1 hl2 res
      · cases r with
        | nullptr => simp [isStrict] at hc
        | mk ch2 w2 l2 r2 =>
          cases hl2 : (l2.isNull && r2.isNull) with
          | true => simpa [decodeWithTreeLoop, hb, hl2] using ih root hs hin (res ++ [ch2])
          | false =>
            simpa [decodeWithTreeLoop, hb, hl2] using ih (.mk ch2 w2 l2 r2) hc.2 hl2 res

/-! ## The claims -/

/-- C1, at the text "aaaa": the tree is a single leaf, its symbol gets the
empty code, the text is encoded to the empty stream, and the tree walk decodes
that stream to the empty text, not to "aaaa". -/
theorem tree_walk_round_trip_aaaa (tie : List Node → Nat) :
    makeHuffmanTree tie textAaaa = .ok (.mk 'a' 4 .nullptr .nullptr) ∧
      encodeChars (.mk 'a' 4 .nullptr .nullptr) = .ok [('a', [])] ∧
      encodeText textAaaa [('a', [])] = .ok [] ∧
      decodeWithTree (.mk 'a' 4 .nullptr .nullptr) [] = .ok [] ∧
      decodeWithTree (.mk 'a' 4 .nullptr .nullptr) [] ≠ .ok textAaaa :=
  ⟨makeHuffmanTree_single tie _ _ (by decide), by decide, by decide, by decide, by decide⟩

/-- C2, at the text "aaaa": the code table maps the one symbol to the empty
code, the text is encoded to the empty stream, and the map lookup decodes that
stream to the empty text, not to "aaaa". -/
theorem map_lookup_round_trip_aaaa (tie : List Node → Nat) :
    makeHuffmanTree tie textAaaa = .ok (.mk 'a' 4 .nullptr .nullptr) ∧
      encodeChars (.mk 'a' 4 .nullptr .nullptr) = .ok [('a', [])] ∧
      encodeText textAaaa [('a', [])] = .ok [] ∧
      decodeWithMap [('a', [])] [] = .ok [] ∧
      decodeWithMap [('a', [])] [] ≠ .ok textAaaa :=
  ⟨makeHuffmanTree_single tie _ _ (by decide), by decide, by decide, by decide, by decide⟩

/-- C3: for every non-empty text the three stages return a root, a code table
and a stream, and the tree walk and the map lookup return the same text for
that stream; so they do in whatever order the code table is iterated. -/
theorem decoders_agree (tie : List Node → Nat) (text : List Char) (h : text ≠ []) :
    ∃ root codes s r, makeHuffmanTree tie text = .ok root ∧
      encodeChars root = .ok codes ∧ encodeText text codes = .ok s ∧
      decodeWithTree root s = .ok r ∧ decodeWithMap codes s = .ok r ∧
      ∀ codes2 : UMap Char (List Char), codes2.Perm codes →
        encodeText text codes2 = .ok s ∧ decodeWithMap codes2 s = .ok r := by
  obtain ⟨root, hroot, hs, hnd, hmem, hcodes, henc⟩ := pipeline_spec tie text h
  have horder : ∀ (s r : List Char), encodeText text (pathList root) = .ok s →
      decodeWithMap (pathList root) s = .ok r →
      ∀ codes2 : UMap Char (List Char), codes2.Perm (pathList root) →
        encodeText text codes2 = .ok s ∧ decodeWithMap codes2 s = .ok r := by
    intro s r h1 h2 codes2 hp
    have := codeMap_order (pathList root) codes2 hp hnd (pathList_snd_nodup root) text s
    rw [this.1, this.2]
    exact ⟨h1, h2⟩
  cases hleaf : root.isLeaf with
  | true =>
    have henc2 : encodeText text (pathList root) = .ok [] := by
      rw [henc, concatCodes_leaf root hs hleaf]
    have hmap : decodeWithMap (pathList root) [] = .ok [] := by
      simp [decodeWithMap, decodeWithMapLoop]
    refine ⟨root, pathList root, [], [], hroot, hcodes, henc2, ?_, hmap,
      horder [] [] henc2 hmap⟩
    simp [decodeWithTree, decodeWithTreeLoop]
  | false =>
    have hrt := round_trip_inner root hs hleaf hnd text (fun d hd => (hmem d).mpr hd)
    exact ⟨root, pathList root, _, text, hroot, hcodes, henc, hrt.1, hrt.2,
      horder _ _ henc hrt.2⟩

/-- Instance of C3 at the text "abbcccc". -/
theorem decoders_agree_witness :
    textAbbcccc ≠ [] ∧
      ∃ root codes s r, makeHuffmanTree firstCandidate textAbbcccc = .ok root ∧
        encodeChars root = .ok codes ∧ encodeText textAbbcccc codes = .ok s ∧
        decodeWithTree root s = .ok r ∧ decodeWithMap codes s = .ok r ∧
        ∀ codes2 : UMap Char (List Char), codes2.Perm codes →
          encodeText textAbbcccc codes2 = .ok s ∧ decodeWithMap codes2 s = .ok r :=
  ⟨by decide, decoders_agree firstCandidate textAbbcccc (by decide)⟩

/-- C4: for every non-empty text the tree and the code table are returned, and
of the codes of two different symbols of the table neither starts with the
other. -/
theorem codes_prefix_free (tie : List Node → Nat) (text : List Char) (h : text ≠ []) :
    ∃ root codes, makeHuffmanTree tie text = .ok root ∧ encodeChars root = .ok codes ∧
      ∀ a b ca cb, a ≠ b → umapFind codes a = some ca → umapFind codes b = some cb →
        ¬ ca <+: cb ∧ ¬ cb <+: ca := by
  obtain ⟨root, hroot, _, _, _, hcodes, _⟩ := pipeline_spec tie text h
  refine ⟨root, pathList root, hroot, hcodes, ?_⟩
  intro a b ca cb hab ha hb
  have hma := umapFind_mem _ _ _ ha
  have hmb := umapFind_mem _ _ _ hb
  constructor
  · intro hp
    have := pathList_related_eq root (a, ca) (b, cb) hma hmb hp
    injection this with e _
    exact hab e
  · intro hp
    have := pathList_related_eq root (b, cb) (a, ca) hmb hma hp
    injection this with e _
    exact hab e.symm

/-- Instance of C4 at the text "abbcccc". -/
theorem codes_prefix_free_witness :
    textAbbcccc ≠ [] ∧
      ∃ root codes, makeHuffmanTree firstCandidate textAbbcccc = .ok root ∧
        encodeChars root = .ok codes ∧
        ∀ a b ca cb, a ≠ b → umapFind codes a = some ca → umapFind codes b = some cb →
          ¬ ca <+: cb ∧ ¬ cb <+: ca :=
  ⟨by decide, codes_prefix_free firstCandidate textAbbcccc (by decide)⟩

/-- C5: with a table that has an entry for every symbol of the text,
`encodeText` returns the concatenation, in input order, of the entries of the
symbols; the empty text gives the empty stream, and the stream of `a ++ b` is
the stream of `a` followed by the stream of `b`. -/
theorem encodeText_concat (text : List Char) (table : UMap Char (List Char))
    (h : ∀ c ∈ text, (umapFind table c).isSome = true) :
    encodeText text table = .ok ((text.map (codeOf table)).flatten) ∧
      (∀ c ∈ text, umapFind table c = some (codeOf table c)) ∧
      encodeText [] table = .ok [] ∧
      ∀ a b, a ++ b = text → ∃ sa sb, encodeText a table = .ok sa ∧
        encodeText b table = .ok sb ∧ encodeText text table = .ok (sa ++ sb) := by
  have hall := encodeTextLoop_ok table text [] h
  refine ⟨by simpa [encodeText, concatCodes] using hall, ?_, rfl, ?_⟩
  · intro c hc
    obtain ⟨v, hv⟩ := Option.isSome_iff_exists.mp (h c hc)
    simp [codeOf, hv]
  · intro a b hab
    subst hab
    have ha := encodeTextLoop_ok table a []
      (fun c hc => h c (List.mem_append_left _ hc))
    have hb := encodeTextLoop_ok table b []
      (fun c hc => h c (List.mem_append_right _ hc))
    refine ⟨concatCodes table a, concatCodes table b, ?_, ?_, ?_⟩
    · simpa [encodeText] using ha
    · simpa [encodeText] using hb
    · rw [← concatCodes_append]
      simpa [encodeText] using hall

/-- Instance of C5 at the text "bab" and the table of `a` and `b`. -/
theorem encodeText_concat_witness :
    (∀ c ∈ ['b', 'a', 'b'], (umapFind [('a', ['0']), ('b', ['1', '1'])] c).isSome = true) ∧
      (encodeText ['b', 'a', 'b'] [('a', ['0']), ('b', ['1', '1'])] =
          .ok ((['b', 'a', 'b'].map (codeOf [('a', ['0']), ('b', ['1', '1'])])).flatten) ∧
        (∀ c ∈ ['b', 'a', 'b'], umapFind [('a', ['0']), ('b', ['1', '1'])] c =
          some (codeOf [('a', ['0']), ('b', ['1', '1'])] c)) ∧
        encodeText [] [('a', ['0']), ('b', ['1', '1'])] = .ok [] ∧
        ∀ a b, a ++ b = ['b', 'a', 'b'] → ∃ sa sb,
          encodeText a [('a', ['0']), ('b', ['1', '1'])] = .ok sa ∧
          encodeText b [('a', ['0']), ('b', ['1', '1'])] = .ok sb ∧
          encodeText ['b', 'a', 'b'] [('a', ['0']), ('b', ['1', '1'])] = .ok (sa ++ sb)) :=
  ⟨by decide, encodeText_concat _ _ (by decide)⟩

/-- C6: `encodeText` ends in an exception exactly when some symbol of the text
has no entry in the table, and it either ends in an exception, which carries
no output, or returns the whole stream. -/
theorem encodeText_fails_iff (text : List Char) (table : UMap Char (List Char)) :
    (encodeText text table = .exception ↔ ∃ c ∈ text, umapFind table c = none) ∧
      (encodeText text table = .exception ∨
        encodeText text table = .ok (concatCodes table text)) := by
  by_cases hex : ∃ c ∈ text, umapFind table c = none
  · have hfail : encodeText text table = .exception :=
      encodeTextLoop_exception table text [] hex
    exact ⟨⟨fun _ => hex, fun _ => hfail⟩, Or.inl hfail⟩
  · have hok : encodeText text table = .ok (concatCodes table text) := by
      have := encodeTextLoop_ok table text [] (by
        intro c hc
        cases hv : umapFind table c with
        | none => exact absurd ⟨c, hc, hv⟩ hex
        | some v => rfl)
      simpa [encodeText] using this
    refine ⟨⟨?_, fun h => absurd h hex⟩, Or.inr hok⟩
    intro hexc
    rw [hok] at hexc
    cases hexc

/-- C7, at the empty text: `makeHuffmanTree` takes `top()` of an empty queue,
which is undefined behaviour; no error is reported. -/
theorem makeHuffmanTree_empty (tie : List Node → Nat) :
    makeHuffmanTree tie [] = .undefined := by
  simp [makeHuffmanTree, initialQueue, getCharWeightMap, mergeLoop, Outcome.bind, pqTop]

/-- C8, at the text "aaaa": the one symbol of the text gets the empty code,
and the text is encoded to the empty stream. -/
theorem single_symbol_code_empty (tie : List Node → Nat) :
    makeHuffmanTree tie textAaaa = .ok (.mk 'a' 4 .nullptr .nullptr) ∧
      encodeChars (.mk 'a' 4 .nullptr .nullptr) = .ok [('a', [])] ∧
      umapFind [('a', ([] : List Char))] 'a' = some [] ∧
      encodeText textAaaa [('a', [])] = .ok [] :=
  ⟨makeHuffmanTree_single tie _ _ (by decide), by decide, by decide, by decide⟩

/-- C9 as amended: for every non-empty text whose length is within `int`, the weight of
the root that `makeHuffmanTree` returns is the sum of the frequencies of the
table, and is the length of the text. -/
theorem root_weight (tie : List Node → Nat) (text : List Char) (h : text ≠ [])
    (hlen : (text.length : Int) ≤ INT_MAX) :
    ∃ root, makeHuffmanTree tie text = .ok root ∧
      root.weight = ((getCharWeightMap text).map Prod.snd).sum ∧
      root.weight = text.length := by
  have hsum := getCharWeightMap_sum text hlen
  have hinit : WeightInv text.length (initialQueue text) := by
    rw [initialQueue_eq]
    constructor
    · intro n hn
      obtain ⟨p, hp, rfl⟩ := List.mem_map.mp hn
      have := hsum.1 p.2 (List.mem_map_of_mem Prod.snd hp)
      simp only [Node.weight]
      omega
    · rw [← hsum.2]
      simp [List.map_map, Function.comp_def, Node.weight]
  obtain ⟨root, hloop, hroot⟩ := mergeLoop_invariant tie (WeightInv text.length)
    (fun q x y q2 hinv hperm _ _ => WeightInv_step _ hlen q x y q2 hinv hperm)
    (initialQueue text).length (initialQueue text)
    (initialQueue_ne_nil text h) (Nat.le_refl _) hinit
  have hw : root.weight = text.length := by simpa using hroot.2
  refine ⟨root, ?_, ?_, hw⟩
  · simp [makeHuffmanTree, hloop, Outcome.bind, pqTop_singleton]
  · rw [hw, hsum.2]

/-- Instance of C9 as amended at the text "abbcccc". -/
theorem root_weight_witness :
    textAbbcccc ≠ [] ∧ (textAbbcccc.length : Int) ≤ INT_MAX ∧
      ∃ root, makeHuffmanTree firstCandidate textAbbcccc = .ok root ∧
        root.weight = ((getCharWeightMap textAbbcccc).map Prod.snd).sum ∧
        root.weight = textAbbcccc.length :=
  ⟨by decide, by decide, root_weight firstCandidate textAbbcccc (by decide) (by decide)⟩

/-- C10 as the specification states it fails on the tree of "abbcccc" and the
stream "10": the bit `'1'` leads to the leaf of `c`, the bit `'0'` leads from
the root to the inner node above `a` and `b`, and there the stream ends.
`decodeWithTree` returns "c", the symbols decoded so far, and no error. -/
theorem truncated_stream_not_reported :
    makeHuffmanTree firstCandidate textAbbcccc = .ok treeAbbcccc ∧
      encodeChars treeAbbcccc =
        .ok [('a', ['0', '0']), ('b', ['0', '1']), ('c', ['1'])] ∧
      decodeWithTree treeAbbcccc ['1', '0'] = .ok ['c'] ∧
      decodeWithTree treeAbbcccc ['1', '0'] ≠ .exception :=
  ⟨by decide, by decide, by decide, by decide⟩

/-- C10 as amended: for every tree that `makeHuffmanTree` builds, with its code
table, and every stream made of the codes of symbols `w` of the text followed
by a beginning `p` of the code of a symbol that stops before the end of that
code, `decodeWithTree` reports no error: it returns `w`, the symbols decoded
so far, and drops the incomplete code. When the text has two different
symbols, `decodeWithTree` returns a text for every stream whatever. -/
theorem decodeWithTree_truncated (tie : List Node → Nat) (text : List Char)
    (h : text ≠ []) :
    ∃ root codes, makeHuffmanTree tie text = .ok root ∧ encodeChars root = .ok codes ∧
      (∀ (w : List Char) (c : Char) (p q : List Char), (∀ d ∈ w, d ∈ text) → c ∈ text →
        p ++ q = codeOf codes c → q ≠ [] →
        decodeWithTree root (concatCodes codes w ++ p) = .ok w) ∧
      ∀ a b, a ∈ text → b ∈ text → a ≠ b → ∀ s, ∃ r, decodeWithTree root s = .ok r := by
  obtain ⟨root, hroot, hs, hnd, hmem, hcodes, _⟩ := pipeline_spec tie text h
  refine ⟨root, pathList root, hroot, hcodes, ?_, ?_⟩
  · intro w c p q hw hc hpq hq
    have hcode := (codeOf_pathList root hnd c ((hmem c).mpr hc)).1
    rw [← hpq] at hcode
    cases hleaf : root.isLeaf with
    | true =>
      cases root with
      | nullptr => simp [isStrict] at hs
      | mk ch w0 l r =>
        rw [pathList_leaf ch w0 l r hleaf] at hcode
        simp at hcode
        exact absurd hcode.2.2 hq
    | false =>
      exact decodeWithTree_codes_partial root hs hleaf hnd w
        (fun d hd => (hmem d).mpr (hw d hd)) c p q hcode hq
  · intro a b ha hb hab s
    have hin := isLeaf_false_of_two root a b ((hmem a).mpr ha) ((hmem b).mpr hb) hab
    exact decodeWithTreeLoop_total root hs hin s root hs hin []

/-- Instance of C10 as amended at the text "abbcccc". -/
theorem decodeWithTree_truncated_witness :
    textAbbcccc ≠ [] ∧
      ∃ root codes, makeHuffmanTree firstCandidate textAbbcccc = .ok root ∧
        encodeChars root = .ok codes ∧
        (∀ (w : List Char) (c : Char) (p q : List Char), (∀ d ∈ w, d ∈ textAbbcccc) →
          c ∈ textAbbcccc → p ++ q = codeOf codes c → q ≠ [] →
          decodeWithTree root (concatCodes codes w ++ p) = .ok w) ∧
        ∀ a b, a ∈ textAbbcccc → b ∈ textAbbcccc → a ≠ b →
          ∀ s, ∃ r, decodeWithTree root s = .ok r :=
  ⟨by decide, decodeWithTree_truncated firstCandidate textAbbcccc (by decide)⟩

/-! ## The map-lookup decoder on arbitrary tables and streams -/

/-- The second loop of `decodeWithMap` returns a text whatever the table and
the stream: `at` is called for keys that `count` has found. -/
theorem decodeWithMapLoop_total (dm : UMap (List Char) Char) (s buf res : List Char) :
    ∃ r, decodeWithMapLoop dm s buf res = .ok r := by
  induction s generalizing buf res with
  | nil => exact ⟨res, rfl⟩
  | cons bit s ih =>
    cases hv : umapFind dm (buf ++ [bit]) with
    | none => simpa [decodeWithMapLoop, umapCount, hv] using ih (buf ++ [bit]) res
    | some ch =>
      simpa [decodeWithMapLoop, umapCount, umapAt, hv, Outcome.bind] using
        ih [] (res ++ [ch])

/-- The bits left in the buffer at the end of the loop are the end of the
stream, and the loop returns what it returns for the stream before them. -/
theorem decodeWithMapLoop_split (dm : UMap (List Char) Char) (s buf res : List Char) :
    (decodeWithMapBuffer dm s buf = buf ++ s ∧ decodeWithMapLoop dm s buf res = .ok res) ∨
      ∃ s0, s = s0 ++ decodeWithMapBuffer dm s buf ∧ decodeWithMapBuffer dm s0 buf = [] ∧
        decodeWithMapLoop dm s buf res = decodeWithMapLoop dm s0 buf res := by
  induction s generalizing buf res with
  | nil => exact Or.inl ⟨by simp [decodeWithMapBuffer], rfl⟩
  | cons bit s ih =>
    cases hv : umapFind dm (buf ++ [bit]) with
    | none =>
      have hb : decodeWithMapBuffer dm (bit :: s) buf =
          decodeWithMapBuffer dm s (buf ++ [bit]) := by
        simp [decodeWithMapBuffer, umapCount, hv]
      have hl : ∀ t, decodeWithMapLoop dm (bit :: t) buf res =
          decodeWithMapLoop dm t (buf ++ [bit]) res := by
        intro t
        simp [decodeWithMapLoop, umapCount, hv]
      rcases ih (buf ++ [bit]) res with ⟨h1, h2⟩ | ⟨s0, h1, h2, h3⟩
      · exact Or.inl ⟨by rw [hb, h1]; simp, by rw [hl, h2]⟩
      · refine Or.inr ⟨bit :: s0, ?_, ?_, ?_⟩
        · rw [hb, List.cons_append, ← h1]
        · simpa [decodeWithMapBuffer, umapCount, hv] using h2
        · rw [hl, hl, h3]
    | some ch =>
      have hb : decodeWithMapBuffer dm (bit :: s) buf = decodeWithMapBuffer dm s [] := by
        simp [decodeWithMapBuffer, umapCount, hv]
      have hl : ∀ t, decodeWithMapLoop dm (bit :: t) buf res =
          decodeWithMapLoop dm t [] (res ++ [ch]) := by
        intro t
        simp [decodeWithMapLoop, umapCount, umapAt, hv, Outcome.bind]
      have hb0 : decodeWithMapBuffer dm [bit] buf = [] := by
        simp [decodeWithMapBuffer, umapCount, hv]
      rcases ih [] (res ++ [ch]) with ⟨h1, h2⟩ | ⟨s0, h1, h2, h3⟩
      · refine Or.inr ⟨[bit], ?_, hb0, ?_⟩
        · rw [hb, h1]
          simp
        · rw [hl, hl, h2]
          rfl
      · refine Or.inr ⟨bit :: s0, ?_, ?_, ?_⟩
        · rw [hb, List.cons_append, ← h1]
        · simpa [decodeWithMapBuffer, umapCount, hv] using h2
        · rw [hl, hl, h3]

/-- A buffer that is not empty after a bit is no key of the inverted table. -/
theorem decodeWithMapBuffer_unmatched (dm : UMap (List Char) Char) (s buf : List Char)
    (hbuf : buf = [] ∨ umapFind dm buf = none) :
    decodeWithMapBuffer dm s buf = [] ∨
      umapFind dm (decodeWithMapBuffer dm s buf) = none := by
  induction s generalizing buf with
  | nil => simpa [decodeWithMapBuffer] using hbuf
  | cons bit s ih =>
    cases hv : umapFind dm (buf ++ [bit]) with
    | none =>
      simpa [decodeWithMapBuffer, umapCount, hv] using ih (buf ++ [bit]) (Or.inr hv)
    | some ch =>
      simpa [decodeWithMapBuffer, umapCount, hv] using ih [] (Or.inl rfl)

/-- C11 as the specification states it fails on the code table of "abbcccc"
and the stream "10": after the bit `'1'` the buffer is the code of `c`, after
the bit `'0'` the buffer is "0", which is no code, and there the stream ends.
`decodeWithMap` returns "c", the symbols decoded so far, and no error. -/
theorem truncated_stream_not_reported_by_map :
    encodeChars treeAbbcccc = .ok codesAbbcccc ∧
      decodeWithMapBuffer (invertCodeMap codesAbbcccc) ['1', '0'] [] = ['0'] ∧
      umapFind (invertCodeMap codesAbbcccc) ['0'] = none ∧
      decodeWithMap codesAbbcccc ['1', '0'] = .ok ['c'] ∧
      decodeWithMap codesAbbcccc ['1', '0'] ≠ .exception :=
  ⟨by decide, by decide, by decide, by decide, by decide⟩

/-- C11 as amended: for every code table and every stream after whose last bit
the buffer is not empty, the buffer matches no code and `decodeWithMap`
reports no error: it returns the symbols decoded so far, which is what it
returns for the stream without the bits left in the buffer. -/
theorem decodeWithMap_truncated (codeMap : UMap Char (List Char)) (s : List Char)
    (hb : decodeWithMapBuffer (invertCodeMap codeMap) s [] ≠ []) :
    umapFind (invertCodeMap codeMap)
        (decodeWithMapBuffer (invertCodeMap codeMap) s []) = none ∧
      ∃ s0 r, s = s0 ++ decodeWithMapBuffer (invertCodeMap codeMap) s [] ∧
        decodeWithMapBuffer (invertCodeMap codeMap) s0 [] = [] ∧
        decodeWithMap codeMap s0 = .ok r ∧ decodeWithMap codeMap s = .ok r := by
  constructor
  · rcases decodeWithMapBuffer_unmatched (invertCodeMap codeMap) s [] (Or.inl rfl) with h | h
    · exact absurd h hb
    · exact h
  · rcases decodeWithMapLoop_split (invertCodeMap codeMap) s [] [] with ⟨h1, h2⟩ | ⟨s0, h1, h2, h3⟩
    · refine ⟨[], [], by rw [h1]; simp, rfl, rfl, h2⟩
    · obtain ⟨r, hr⟩ := decodeWithMapLoop_total (invertCodeMap codeMap) s0 [] []
      exact ⟨s0, r, h1, h2, hr, by rw [decodeWithMap, h3, hr]⟩

/-- Instance of C11 as amended at the code table of "abbcccc" and the stream
"10". -/
theorem decodeWithMap_truncated_witness :
    decodeWithMapBuffer (invertCodeMap codesAbbcccc) ['1', '0'] [] ≠ [] ∧
      umapFind (invertCodeMap codesAbbcccc)
          (decodeWithMapBuffer (invertCodeMap codesAbbcccc) ['1', '0'] []) = none ∧
      ∃ s0 r, ['1', '0'] = s0 ++ decodeWithMapBuffer (invertCodeMap codesAbbcccc) ['1', '0'] [] ∧
        decodeWithMapBuffer (invertCodeMap codesAbbcccc) s0 [] = [] ∧
        decodeWithMap codesAbbcccc s0 = .ok r ∧
        decodeWithMap codesAbbcccc ['1', '0'] = .ok r :=
  ⟨by decide, decodeWithMap_truncated codesAbbcccc ['1', '0'] (by decide)⟩

/-! ## Inversion of a table with a repeated code -/

theorem umapFind_umapAssign {K V : Type} [DecidableEq K] (m : UMap K V) (k k2 : K) (v : V) :
    umapFind (umapAssign m k v) k2 = if k = k2 then some v else umapFind m k2 := by
  induction m with
  | nil => simp [umapAssign, umapFind]
  | cons p m ih =>
    obtain ⟨k0, v0⟩ := p
    by_cases hk : k0 = k
    · subst hk
      by_cases hk2 : k0 = k2 <;> simp [umapAssign, umapFind, hk2]
    · by_cases hk2 : k0 = k2
      · subst hk2
        have hne : ¬ k = k0 := fun e => hk e.symm
        simp [umapAssign, umapFind, hk, hne]
      · simp [umapAssign, umapFind, hk, hk2, ih]

/-- Assignments to other keys leave the entry of a key as it was. -/
theorem foldl_invert_other (l : UMap Char (List Char)) (m : UMap (List Char) Char)
    (code : List Char) (h : code ∉ l.map Prod.snd) :
    umapFind (l.foldl (fun decodeMap pair => umapAssign decodeMap pair.2 pair.1) m) code =
      umapFind m code := by
  induction l generalizing m with
  | nil => rfl
  | cons p l ih =>
    simp only [List.map_cons, List.mem_cons, not_or] at h
    have hne : ¬ p.2 = code := fun e => h.1 e.symm
    rw [List.foldl_cons, ih _ h.2, umapFind_umapAssign]
    simp [hne]

/-- The inverted table maps a code to the symbol of the last pair, in the
order of iteration, that has this code. -/
theorem invertCodeMap_last (l1 l2 : UMap Char (List Char)) (c : Char) (code : List Char)
    (h : code ∉ l2.map Prod.snd) :
    umapFind (invertCodeMap (l1 ++ (c, code) :: l2)) code = some c := by
  rw [invertCodeMap, List.foldl_append, List.foldl_cons, foldl_invert_other l2 _ code h,
    umapFind_umapAssign]
  simp

theorem exists_last_code (codeMap : UMap Char (List Char)) (code : List Char)
    (h : code ∈ codeMap.map Prod.snd) :
    ∃ l1 c l2, codeMap = l1 ++ (c, code) :: l2 ∧ code ∉ l2.map Prod.snd := by
  induction codeMap with
  | nil => simp at h
  | cons p t ih =>
    by_cases ht : code ∈ t.map Prod.snd
    · obtain ⟨l1, c, l2, he, hl2⟩ := ih ht
      exact ⟨p :: l1, c, l2, by rw [he]; rfl, hl2⟩
    · obtain ⟨c0, code0⟩ := p
      simp only [List.map_cons, List.mem_cons] at h
      rcases h with h | h
      · exact ⟨[], c0, t, by rw [h]; rfl, ht⟩
      · exact absurd h ht

/-- C12 as the specification states it fails on the table that maps both `a`
and `b` to "0": the inversion ends without an error, the pair iterated last
overwrites the other, and `decodeWithMap` decodes the stream "0" to the symbol
of that pair, in either order of iteration. -/
theorem duplicate_code_not_reported :
    invertCodeMap [('a', ['0']), ('b', ['0'])] = [(['0'], 'b')] ∧
      decodeWithMap [('a', ['0']), ('b', ['0'])] ['0'] = .ok ['b'] ∧
      invertCodeMap [('b', ['0']), ('a', ['0'])] = [(['0'], 'a')] ∧
      decodeWithMap [('b', ['0']), ('a', ['0'])] ['0'] = .ok ['a'] :=
  ⟨by decide, by decide, by decide, by decide⟩

/-- C12 as amended: for every code table, in whatever order it is iterated, in
which two different symbols `a` and `b` have the same code, the inversion step
of `decodeWithMap` reports no error: the inverted table maps the code to the
symbol `c` of the pair iterated last with that code, another symbol with that
code is lost, and `decodeWithMap` returns a text for every stream. -/
theorem invertCodeMap_duplicate (codeMap : UMap Char (List Char)) (a b : Char)
    (code : List Char) (hab : a ≠ b) (ha : (a, code) ∈ codeMap) (hb : (b, code) ∈ codeMap) :
    ∃ l1 c l2, codeMap = l1 ++ (c, code) :: l2 ∧ code ∉ l2.map Prod.snd ∧
      umapFind (invertCodeMap codeMap) code = some c ∧
      (∃ lost, lost ≠ c ∧ (lost, code) ∈ codeMap) ∧
      ∀ s, ∃ r, decodeWithMap codeMap s = .ok r := by
  obtain ⟨l1, c, l2, he, hl2⟩ :=
    exists_last_code codeMap code (List.mem_map.mpr ⟨(a, code), ha, rfl⟩)
  refine ⟨l1, c, l2, he, hl2, ?_, ?_, ?_⟩
  · rw [he]
    exact invertCodeMap_last l1 l2 c code hl2
  · by_cases hac : a = c
    · exact ⟨b, fun e => hab (hac.trans e.symm), hb⟩
    · exact ⟨a, hac, ha⟩
  · intro s
    exact decodeWithMapLoop_total (invertCodeMap codeMap) s [] []

/-- Instance of C12 as amended at the table that maps both `a` and `b` to
"0". -/
theorem invertCodeMap_duplicate_witness :
    'a' ≠ 'b' ∧ ('a', ['0']) ∈ [('a', ['0']), ('b', ['0'])] ∧
      ('b', ['0']) ∈ [('a', ['0']), ('b', ['0'])] ∧
      ∃ l1 c l2, [('a', ['0']), ('b', ['0'])] = l1 ++ (c, ['0']) :: l2 ∧
        ['0'] ∉ l2.map Prod.snd ∧
        umapFind (invertCodeMap [('a', ['0']), ('b', ['0'])]) ['0'] = some c ∧
        (∃ lost, lost ≠ c ∧ (lost, ['0']) ∈ [('a', ['0']), ('b', ['0'])]) ∧
        ∀ s, ∃ r, decodeWithMap [('a', ['0']), ('b', ['0'])] s = .ok r :=
  ⟨by decide, by decide, by decide,
    invertCodeMap_duplicate _ 'a' 'b' ['0'] (by decide) (by decide) (by decide)⟩

/-! ## The counts of the frequency table -/

/-- A property of the queue that every pass through the loop body keeps holds
of the queue after any number of passes. -/
theorem mergeLoop_invariant_any (tie : List Node → Nat) (Inv : List Node → Prop)
    (hstep : ∀ q x y q2, Inv q → q.Perm (x :: y :: q2) →
      (∀ z ∈ q, x.weight ≤ z.weight) → (∀ z ∈ y :: q2, y.weight ≤ z.weight) →
      Inv (pqPush q2 (.mk '#' (wrapInt (x.weight + y.weight)) x y)))
    (fuel : Nat) (q : List Node) (hinv : Inv q) :
    ∃ q2, mergeLoop tie fuel q = .ok q2 ∧ Inv q2 := by
  induction fuel generalizing q with
  | zero => exact ⟨q, rfl, hinv⟩
  | succ fuel ih =>
    by_cases h1 : 1 < q.length
    · obtain ⟨x, y, q2, hperm, hminx, hminy, hms⟩ := mergeStep_spec tie q h1
      have := ih (pqPush q2 (.mk '#' (wrapInt (x.weight + y.weight)) x y))
        (hstep q x y q2 hinv hperm hminx hminy)
      simpa [mergeLoop, h1, hms, Outcome.bind] using this
    · exact ⟨q, by simp [mergeLoop, h1], hinv⟩

theorem leafList_leaf (ch : Char) (w : Int) (l r : Node)
    (hl : (l.isNull && r.isNull) = true) : leafList (.mk ch w l r) = [(ch, w)] := by
  simp [leafList, hl]

theorem leafList_inner (ch : Char) (w : Int) (l r : Node)
    (hl : (l.isNull && r.isNull) = false) :
    leafList (.mk ch w l r) = leafList l ++ leafList r := by
  simp [leafList, hl]

theorem leafList_symbols (n : Node) : (leafList n).map Prod.fst = leafSymbols n := by
  induction n with
  | nullptr => rfl
  | mk ch w l r ihl ihr =>
    cases hl : (l.isNull && r.isNull) with
    | true => simp [leafList_leaf ch w l r hl, leafSymbols, pathList_leaf ch w l r hl]
    | false =>
      rw [leafList_inner ch w l r hl, leafSymbols_inner ch w l r hl, List.map_append, ihl, ihr]

/-- While the weights of the queue add up to a total within `int`, the sum of
the weights of two of its nodes does not wrap around. -/
theorem wrapInt_parent (total : Int) (htotal : total ≤ INT_MAX) (q : List Node)
    (x y : Node) (q2 : List Node) (hinv : WeightInv total q)
    (hperm : q.Perm (x :: y :: q2)) :
    wrapInt (x.weight + y.weight) = x.weight + y.weight := by
  have hx : 0 ≤ x.weight := hinv.1 x (hperm.symm.subset (by simp))
  have hy : 0 ≤ y.weight := hinv.1 y (hperm.symm.subset (by simp))
  have hsum2 : 0 ≤ (q2.map Node.weight).sum := by
    apply List.sum_nonneg
    intro z hz
    obtain ⟨n, hn, rfl⟩ := List.mem_map.mp hz
    exact hinv.1 n (hperm.symm.subset (by simp [hn]))
  have hsum : (q.map Node.weight).sum =
      x.weight + (y.weight + (q2.map Node.weight).sum) := by
    rw [(hperm.map Node.weight).sum_eq]
    simp
  have htot := hinv.2
  exact wrapInt_eq _ (by omega) (by omega)

theorem AddInv_step (total : Int) (htotal : total ≤ INT_MAX) (q : List Node)
    (x y : Node) (q2 : List Node) (hinv : AddInv total q)
    (hperm : q.Perm (x :: y :: q2)) :
    AddInv total (pqPush q2 (.mk '#' (wrapInt (x.weight + y.weight)) x y)) := by
  refine ⟨WeightInv_step total htotal q x y q2 hinv.1 hperm, ?_⟩
  intro n hn
  simp only [pqPush, List.mem_append, List.mem_singleton] at hn
  rcases hn with hn | hn
  · exact hinv.2 n (hperm.symm.subset (by simp [hn]))
  · rw [hn]
    exact Or.inr ⟨wrapInt_parent total htotal q x y q2 hinv.1 hperm,
      hinv.2 x (hperm.symm.subset (by simp)), hinv.2 y (hperm.symm.subset (by simp))⟩

/-- For a text whose length is within `int`, the queue before the merge loop
holds leaves whose weights add up to the length of the text. -/
theorem AddInv_initial (text : List Char) (hlen : (text.length : Int) ≤ INT_MAX) :
    AddInv text.length (initialQueue text) := by
  have hsum := getCharWeightMap_sum text hlen
  rw [initialQueue_eq]
  refine ⟨⟨?_, ?_⟩, ?_⟩
  · intro n hn
    obtain ⟨p, hp, rfl⟩ := List.mem_map.mp hn
    have := hsum.1 p.2 (List.mem_map_of_mem Prod.snd hp)
    simp only [Node.weight]
    omega
  · rw [← hsum.2]
    simp [List.map_map, Function.comp_def, Node.weight]
  · intro n hn
    obtain ⟨p, _, rfl⟩ := List.mem_map.mp hn
    exact Or.inl rfl

/-- C16 as amended: for every non-empty text whose length is within `int`, every inner
node of the tree that `makeHuffmanTree` returns has the sum of the weights of
its two children as its weight, and so has every inner node of every tree in
the queue after any number of passes through the merge loop. -/
theorem inner_weights_add (tie : List Node → Nat) (text : List Char) (h : text ≠ [])
    (hlen : (text.length : Int) ≤ INT_MAX) :
    (∃ root, makeHuffmanTree tie text = .ok root ∧ weightsAdd root) ∧
      ∀ passes, ∃ q, mergeLoop tie passes (initialQueue text) = .ok q ∧
        ∀ n ∈ q, weightsAdd n := by
  have hinit := AddInv_initial text hlen
  have hstep : ∀ q x y q2, AddInv text.length q → q.Perm (x :: y :: q2) →
      (∀ z ∈ q, x.weight ≤ z.weight) → (∀ z ∈ y :: q2, y.weight ≤ z.weight) →
      AddInv text.length (pqPush q2 (.mk '#' (wrapInt (x.weight + y.weight)) x y)) :=
    fun q x y q2 hinv hperm _ _ => AddInv_step _ hlen q x y q2 hinv hperm
  constructor
  · obtain ⟨root, hloop, hroot⟩ := mergeLoop_invariant tie (AddInv text.length) hstep
      (initialQueue text).length (initialQueue text) (initialQueue_ne_nil text h)
      (Nat.le_refl _) hinit
    refine ⟨root, ?_, hroot.2 root (List.mem_singleton_self root)⟩
    simp [makeHuffmanTree, hloop, Outcome.bind, pqTop_singleton]
  · intro passes
    obtain ⟨q, hq, hinv⟩ := mergeLoop_invariant_any tie (AddInv text.length) hstep
      passes (initialQueue text) hinit
    exact ⟨q, hq, hinv.2⟩

/-- Instance of C16 as amended at the text "abbcccc". -/
theorem inner_weights_add_witness :
    textAbbcccc ≠ [] ∧ (textAbbcccc.length : Int) ≤ INT_MAX ∧
      (∃ root, makeHuffmanTree firstCandidate textAbbcccc = .ok root ∧ weightsAdd root) ∧
      ∀ passes, ∃ q, mergeLoop firstCandidate passes (initialQueue textAbbcccc) = .ok q ∧
        ∀ n ∈ q, weightsAdd n :=
  ⟨by decide, by decide,
    inner_weights_add firstCandidate textAbbcccc (by decide) (by decide)⟩

/-! ## The code generator -/

/-- The list of the leaves with their paths holds the paths of the tree. -/
theorem LeafAt_iff (n : Node) (p : List Char) (c : Char) :
    LeafAt n p c ↔ (c, p) ∈ pathList n := by
  constructor
  · intro h
    induction h with
    | here ch w l r hl => simp [pathList_leaf ch w l r hl]
    | left ch w l r p c hl _ ih =>
      rw [pathList_inner ch w l r hl]
      exact List.mem_append_left _ (List.mem_map.mpr ⟨(c, p), ih, rfl⟩)
    | right ch w l r p c hl _ ih =>
      rw [pathList_inner ch w l r hl]
      exact List.mem_append_right _ (List.mem_map.mpr ⟨(c, p), ih, rfl⟩)
  · intro h
    induction n generalizing p with
    | nullptr => simp [pathList] at h
    | mk ch w l r ihl ihr =>
      cases hl : (l.isNull && r.isNull) with
      | true =>
        rw [pathList_leaf ch w l r hl] at h
        simp only [List.mem_singleton, Prod.mk.injEq] at h
        rw [h.1, h.2]
        exact LeafAt.here ch w l r hl
      | false =>
        rw [pathList_inner ch w l r hl] at h
        simp only [List.mem_append, List.mem_map, Prod.mk.injEq] at h
        rcases h with ⟨⟨a1, a2⟩, ha, hac, hap⟩ | ⟨⟨a1, a2⟩, ha, hac, hap⟩
        · simp only at hac hap
          subst hac hap
          exact LeafAt.left ch w l r a2 a1 hl (ihl a2 ha)
        · simp only at hac hap
          subst hac hap
          exact LeafAt.right ch w l r a2 a1 hl (ihr a2 ha)

/-- No symbol at two leaves: the symbols of the leaves, from left to right,
are distinct. -/
theorem leafSymbols_nodup_iff (n : Node) :
    (leafSymbols n).Nodup ↔ ∀ c p q, LeafAt n p c → LeafAt n q c → p = q := by
  constructor
  · intro hnd c p q hp hq
    have h1 := umapFind_of_mem (pathList n) c p hnd ((LeafAt_iff n p c).mp hp)
    have h2 := umapFind_of_mem (pathList n) c q hnd ((LeafAt_iff n q c).mp hq)
    rw [h1] at h2
    exact Option.some.inj h2
  · intro h
    have hpairs : (pathList n).Nodup := List.Nodup.of_map Prod.snd (pathList_snd_nodup n)
    apply List.Nodup.map_on _ hpairs
    rintro ⟨c1, p1⟩ h1 ⟨c2, p2⟩ h2 he
    simp only at he
    subst he
    rw [h c1 p1 p2 ((LeafAt_iff n p1 c1).mpr h1) ((LeafAt_iff n p2 c1).mpr h2)]

/-- C17: for every strict binary tree with no symbol at two leaves,
`encodeChars` returns a table that maps a symbol to a bit string exactly when
the bit string is the path from the root to a leaf that carries the symbol; so
its keys are the symbols at the leaves, and the code is empty when the root is
a leaf. -/
theorem encodeChars_paths (root : Node) (hs : isStrict root = true)
    (hdistinct : ∀ c p q, LeafAt root p c → LeafAt root q c → p = q) :
    ∃ codes, encodeChars root = .ok codes ∧
      (∀ c p, umapFind codes c = some p ↔ LeafAt root p c) ∧
      (∀ c, (umapFind codes c).isSome = true ↔ ∃ p, LeafAt root p c) ∧
      (root.isLeaf = true → ∀ c p, umapFind codes c = some p → p = []) := by
  have hnd := (leafSymbols_nodup_iff root).mpr hdistinct
  have hiff : ∀ c p, umapFind (pathList root) c = some p ↔ LeafAt root p c := by
    intro c p
    rw [LeafAt_iff]
    exact ⟨umapFind_mem _ c p, umapFind_of_mem _ c p hnd⟩
  refine ⟨pathList root, encodeChars_eq root hs hnd, hiff, ?_, ?_⟩
  · intro c
    rw [Option.isSome_iff_exists]
    exact exists_congr (hiff c)
  · intro hleaf c p hp
    have hmem := umapFind_mem _ c p hp
    cases root with
    | nullptr => simp [isStrict] at hs
    | mk ch w l r =>
      rw [pathList_leaf ch w l r hleaf] at hmem
      simp only [List.mem_singleton, Prod.mk.injEq] at hmem
      exact hmem.2

/-- Instance of C17 at the tree of "abbcccc". -/
theorem encodeChars_paths_witness :
    isStrict treeAbbcccc = true ∧
      (∀ c p q, LeafAt treeAbbcccc p c → LeafAt treeAbbcccc q c → p = q) ∧
      ∃ codes, encodeChars treeAbbcccc = .ok codes ∧
        (∀ c p, umapFind codes c = some p ↔ LeafAt treeAbbcccc p c) ∧
        (∀ c, (umapFind codes c).isSome = true ↔ ∃ p, LeafAt treeAbbcccc p c) ∧
        (treeAbbcccc.isLeaf = true → ∀ c p, umapFind codes c = some p → p = []) :=
  ⟨by decide, (leafSymbols_nodup_iff treeAbbcccc).mp (by decide),
    encodeChars_paths treeAbbcccc (by decide)
      ((leafSymbols_nodup_iff treeAbbcccc).mp (by decide))⟩

/-! ## Round trip and agreement of the decoders below an inner root -/

/-- C18: for every text with two different symbols the three stages return a
root, a code table with a code for every symbol of the text, and a stream, and
both `decodeWithTree` and `decodeWithMap` return the text for that stream; so
they do in whatever order the code table is iterated. The tree walk returns,
so it never reads through a null child. -/
theorem round_trip (tie : List Node → Nat) (text : List Char) (a b : Char)
    (ha : a ∈ text) (hb : b ∈ text) (hab : a ≠ b) :
    ∃ root codes s, makeHuffmanTree tie text = .ok root ∧
      encodeChars root = .ok codes ∧
      (∀ c ∈ text, (umapFind codes c).isSome = true) ∧
      encodeText text codes = .ok s ∧
      decodeWithTree root s = .ok text ∧ decodeWithMap codes s = .ok text ∧
      ∀ codes2 : UMap Char (List Char), codes2.Perm codes →
        encodeText text codes2 = .ok s ∧ decodeWithMap codes2 s = .ok text := by
  have hne : text ≠ [] := List.ne_nil_of_mem ha
  obtain ⟨root, hroot, hs, hnd, hmem, hcodes, henc⟩ := pipeline_spec tie text hne
  have hin := isLeaf_false_of_two root a b ((hmem a).mpr ha) ((hmem b).mpr hb) hab
  have hrt := round_trip_inner root hs hin hnd text (fun d hd => (hmem d).mpr hd)
  refine ⟨root, pathList root, _, hroot, hcodes, ?_, henc, hrt.1, hrt.2, ?_⟩
  · intro c hc
    rw [(codeOf_pathList root hnd c ((hmem c).mpr hc)).2]
    rfl
  · intro codes2 hp
    have := codeMap_order (pathList root) codes2 hp hnd (pathList_snd_nodup root) text
      (concatCodes (pathList root) text)
    rw [this.1, this.2]
    exact ⟨henc, hrt.2⟩

/-- Instance of C18 at the text "abbcccc". -/
theorem round_trip_witness :
    'a' ∈ textAbbcccc ∧ 'b' ∈ textAbbcccc ∧ 'a' ≠ 'b' ∧
      ∃ root codes s, makeHuffmanTree firstCandidate textAbbcccc = .ok root ∧
        encodeChars root = .ok codes ∧
        (∀ c ∈ textAbbcccc, (umapFind codes c).isSome = true) ∧
        encodeText textAbbcccc codes = .ok s ∧
        decodeWithTree root s = .ok textAbbcccc ∧
        decodeWithMap codes s = .ok textAbbcccc ∧
        ∀ codes2 : UMap Char (List Char), codes2.Perm codes →
          encodeText textAbbcccc codes2 = .ok s ∧
          decodeWithMap codes2 s = .ok textAbbcccc :=
  ⟨by decide, by decide, by decide,
    round_trip firstCandidate textAbbcccc 'a' 'b' (by decide) (by decide) (by decide)⟩

/-- From an inner node of a strict tree, a stream of bits either stops before
the end of the path of a leaf or begins with the path of a leaf. -/
theorem walk_cases (n : Node) (hn : isStrict n = true) (hin : n.isLeaf = false)
    (s : List Char) (hbits : ∀ b ∈ s, b = '0' ∨ b = '1') :
    (∃ c q, q ≠ [] ∧ (c, s ++ q) ∈ pathList n) ∨
      ∃ c p s2, (c, p) ∈ pathList n ∧ s = p ++ s2 := by
  induction n generalizing s with
  | nullptr => simp [isStrict] at hn
  | mk ch w l r ihl ihr =>
    have hl : (l.isNull && r.isNull) = false := hin
    have hc := isStrict_children ch w l r hn hl
    cases s with
    | nil =>
      obtain ⟨⟨c, q⟩, hmem⟩ := List.exists_mem_of_ne_nil _ (pathList_ne_nil _ hn)
      exact Or.inl ⟨c, q, pathList_inner_ne_nil ch w l r hl c q hmem, by simpa using hmem⟩
    | cons b s =>
      have hrest : ∀ b2 ∈ s, b2 = '0' ∨ b2 = '1' :=
        fun b2 h2 => hbits b2 (List.mem_cons_of_mem _ h2)
      have key : ∀ (child : Node) (bit : Char), isStrict child = true →
          (∀ c p, (c, p) ∈ pathList child → (c, bit :: p) ∈ pathList (.mk ch w l r)) →
          (∀ s0, (∀ b2 ∈ s0, b2 = '0' ∨ b2 = '1') → child.isLeaf = false →
            (∃ c q, q ≠ [] ∧ (c, s0 ++ q) ∈ pathList child) ∨
              ∃ c p s2, (c, p) ∈ pathList child ∧ s0 = p ++ s2) →
          (∃ c q, q ≠ [] ∧ (c, (bit :: s) ++ q) ∈ pathList (.mk ch w l r)) ∨
            ∃ c p s2, (c, p) ∈ pathList (.mk ch w l r) ∧ bit :: s = p ++ s2 := by
        intro child bit hchild hup ih
        cases hleaf : child.isLeaf with
        | true =>
          cases child with
          | nullptr => simp [isStrict] at hchild
          | mk ch2 w2 l2 r2 =>
            have hm : (ch2, []) ∈ pathList (.mk ch2 w2 l2 r2) := by
              rw [pathList_leaf ch2 w2 l2 r2 hleaf]
              simp
            exact Or.inr ⟨ch2, [bit], s, hup ch2 [] hm, rfl⟩
        | false =>
          rcases ih s hrest hleaf with ⟨c, q, hq, hm⟩ | ⟨c, p, s2, hm, he⟩
          · exact Or.inl ⟨c, q, hq, hup c _ hm⟩
          · exact Or.inr ⟨c, bit :: p, s2, hup c p hm, by rw [he]; rfl⟩
      rcases hbits b (List.mem_cons_self _ _) with hb | hb
      · subst hb
        apply key l '0' hc.1
        · intro c p hm
          rw [pathList_inner ch w l r hl]
          exact List.mem_append_left _ (List.mem_map.mpr ⟨(c, p), hm, rfl⟩)
        · intro s0 h0 hleaf
          exact ihl hc.1 hleaf s0 h0
      · subst hb
        apply key r '1' hc.2
        · intro c p hm
          rw [pathList_inner ch w l r hl]
          exact List.mem_append_right _ (List.mem_map.mpr ⟨(c, p), hm, rfl⟩)
        · intro s0 h0 hleaf
          exact ihr hc.2 hleaf s0 h0

/-- Below an inner root, every stream of bits is made of the codes of leaf
symbols followed by bits that stop before the end of a code. -/
theorem stream_decomposition (root : Node) (hs : isStrict root = true)
    (hin : root.isLeaf = false) (hnd : (leafSymbols root).Nodup) (k : Nat)
    (s : List Char) (hk : s.length ≤ k) (hbits : ∀ b ∈ s, b = '0' ∨ b = '1') :
    ∃ w p, s = concatCodes (pathList root) w ++ p ∧ (∀ d ∈ w, d ∈ leafSymbols root) ∧
      ∃ c q, q ≠ [] ∧ (c, p ++ q) ∈ pathList root := by
  induction k generalizing s with
  | zero =>
    have hnil : s = [] := List.length_eq_zero.mp (Nat.le_zero.mp hk)
    subst hnil
    rcases walk_cases root hs hin [] hbits with h | ⟨c, p, s2, hm, he⟩
    · exact ⟨[], [], by simp [concatCodes], by simp, h⟩
    · have hp : p = [] := by
        cases p with
        | nil => rfl
        | cons _ _ => simp at he
      subst hp
      cases root with
      | nullptr => simp [isStrict] at hs
      | mk ch w l r => exact absurd rfl (pathList_inner_ne_nil ch w l r hin c [] hm)
  | succ k ih =>
    rcases walk_cases root hs hin s hbits with h | ⟨c, p, s2, hm, he⟩
    · exact ⟨[], s, by simp [concatCodes], by simp, h⟩
    · have hp : p ≠ [] := by
        cases root with
        | nullptr => simp [isStrict] at hs
        | mk ch w l r => exact pathList_inner_ne_nil ch w l r hin c p hm
      have hlen : s2.length ≤ k := by
        have h1 : s.length = p.length + s2.length := by rw [he, List.length_append]
        have h2 : 0 < p.length := List.length_pos.mpr hp
        omega
      have hbits2 : ∀ b ∈ s2, b = '0' ∨ b = '1' := by
        intro b hb
        exact hbits b (by rw [he]; exact List.mem_append_right _ hb)
      obtain ⟨w, p2, hw, hsym, hpart⟩ := ih s2 hlen hbits2
      have hcode : codeOf (pathList root) c = p := by
        simp [codeOf, umapFind_of_mem (pathList root) c p hnd hm]
      refine ⟨c :: w, p2, ?_, ?_, hpart⟩
      · rw [concatCodes_cons, hcode, List.append_assoc, ← hw, he]
      · intro d hd
        rcases List.mem_cons.mp hd with e | hd
        · rw [e]
          exact List.mem_map.mpr ⟨(c, p), hm, rfl⟩
        · exact hsym d hd

/-- With an inner node at the root, the map lookup over the codes of `w`
followed by a proper beginning `p` of a code returns `w`. -/
theorem decodeWithMap_codes_partial (root : Node) (hin : root.isLeaf = false)
    (hnd : (leafSymbols root).Nodup) (w : List Char)
    (hw : ∀ d ∈ w, d ∈ leafSymbols root) (c : Char) (p q : List Char)
    (hc : (c, p ++ q) ∈ pathList root) (hq : q ≠ []) :
    decodeWithMap (pathList root) (concatCodes (pathList root) w ++ p) = .ok w := by
  have hinv := invert_pathList root c (p ++ q) hc
  rw [decodeWithMap, decodeWithMapLoop_text root hin hnd w hw,
    decodeWithMapLoop_partial _ (p ++ q) hinv.2 p [] q (by simp) hq]
  simp

/-- C19: for every strict binary tree with an inner node at the root and no
symbol at two leaves, and every stream `s` of the characters `'0'` and `'1'`,
the stream is made of the complete codes of symbols `w` followed by bits `p`
that stop before the end of a code (`p` may be empty), and both
`decodeWithTree` on the tree and `decodeWithMap` on the table of `encodeChars`,
in whatever order it is iterated, return `w`: the trailing incomplete code is
dropped. -/
theorem decoders_agree_on_streams (root : Node) (hs : isStrict root = true)
    (hin : root.isLeaf = false)
    (hdistinct : ∀ c p q, LeafAt root p c → LeafAt root q c → p = q)
    (s : List Char) (hbits : ∀ b ∈ s, b = '0' ∨ b = '1') :
    ∃ codes w p, encodeChars root = .ok codes ∧ s = concatCodes codes w ++ p ∧
      (∀ d ∈ w, ∃ code, LeafAt root code d) ∧
      (∃ c q, q ≠ [] ∧ LeafAt root (p ++ q) c) ∧
      decodeWithTree root s = .ok w ∧ decodeWithMap codes s = .ok w ∧
      ∀ codes2 : UMap Char (List Char), codes2.Perm codes →
        decodeWithMap codes2 s = .ok w := by
  have hnd := (leafSymbols_nodup_iff root).mpr hdistinct
  obtain ⟨w, p, he, hsym, c, q, hq, hpart⟩ :=
    stream_decomposition root hs hin hnd s.length s (Nat.le_refl _) hbits
  have htree := decodeWithTree_codes_partial root hs hin hnd w hsym c p q hpart hq
  have hmap := decodeWithMap_codes_partial root hin hnd w hsym c p q hpart hq
  rw [← he] at htree hmap
  refine ⟨pathList root, w, p, encodeChars_eq root hs hnd, he, ?_,
    ⟨c, q, hq, (LeafAt_iff root _ c).mpr hpart⟩, htree, hmap, ?_⟩
  · intro d hd
    obtain ⟨⟨d0, code⟩, hmem, rfl⟩ := List.mem_map.mp (hsym d hd)
    exact ⟨code, (LeafAt_iff root code d0).mpr hmem⟩
  · intro codes2 hp
    rw [(codeMap_order (pathList root) codes2 hp hnd (pathList_snd_nodup root) [] s).2]
    exact hmap

/-- Instance of C19 at the tree of "abbcccc" and the stream "10". -/
theorem decoders_agree_on_streams_witness :
    isStrict treeAbbcccc = true ∧ treeAbbcccc.isLeaf = false ∧
      (∀ c p q, LeafAt treeAbbcccc p c → LeafAt treeAbbcccc q c → p = q) ∧
      (∀ b ∈ ['1', '0'], b = '0' ∨ b = '1') ∧
      ∃ codes w p, encodeChars treeAbbcccc = .ok codes ∧
        ['1', '0'] = concatCodes codes w ++ p ∧
        (∀ d ∈ w, ∃ code, LeafAt treeAbbcccc code d) ∧
        (∃ c q, q ≠ [] ∧ LeafAt treeAbbcccc (p ++ q) c) ∧
        decodeWithTree treeAbbcccc ['1', '0'] = .ok w ∧
        decodeWithMap codes ['1', '0'] = .ok w ∧
        ∀ codes2 : UMap Char (List Char), codes2.Perm codes →
          decodeWithMap codes2 ['1', '0'] = .ok w :=
  ⟨by decide, by decide, (leafSymbols_nodup_iff treeAbbcccc).mp (by decide), by decide,
    decoders_agree_on_streams treeAbbcccc (by decide) (by decide)
      ((leafSymbols_nodup_iff treeAbbcccc).mp (by decide)) ['1', '0'] (by decide)⟩

/-! ## Lengths of codes -/

/-- In a strict tree the path of a leaf is shorter than the number of
leaves. -/
theorem pathList_depth_lt (n : Node) (hn : isStrict n = true) (c : Char) (p : List Char)
    (hp : (c, p) ∈ pathList n) : p.length + 1 ≤ (pathList n).length := by
  induction n generalizing p with
  | nullptr => simp [isStrict] at hn
  | mk ch w l r ihl ihr =>
    cases hl : (l.isNull && r.isNull) with
    | true =>
      rw [pathList_leaf ch w l r hl] at hp ⊢
      simp only [List.mem_singleton, Prod.mk.injEq] at hp
      simp [hp.2]
    | false =>
      have hc := isStrict_children ch w l r hn hl
      have hkl : 0 < (pathList l).length := List.length_pos.mpr (pathList_ne_nil l hc.1)
      have hkr : 0 < (pathList r).length := List.length_pos.mpr (pathList_ne_nil r hc.2)
      rw [pathList_inner ch w l r hl] at hp ⊢
      simp only [List.mem_append, List.mem_map, Prod.mk.injEq] at hp
      simp only [List.length_append, List.length_map]
      rcases hp with ⟨⟨a1, a2⟩, ha, hac, hap⟩ | ⟨⟨a1, a2⟩, ha, hac, hap⟩
      · simp only at hac hap
        subst hac
        have := ihl hc.1 a2 ha
        rw [← hap]
        simp only [List.length_cons]
        omega
      · simp only at hac hap
        subst hac
        have := ihr hc.2 a2 ha
        rw [← hap]
        simp only [List.length_cons]
        omega

/-- Below an inner root some leaf has a path of at most half the number of
leaves. -/
theorem exists_short_path (n : Node) (hn : isStrict n = true) (hin : n.isLeaf = false) :
    ∃ c p, (c, p) ∈ pathList n ∧ 2 * p.length ≤ (pathList n).length := by
  cases n with
  | nullptr => simp [isStrict] at hn
  | mk ch w l r =>
    have hl : (l.isNull && r.isNull) = false := hin
    have hc := isStrict_children ch w l r hn hl
    obtain ⟨⟨cl, pl⟩, hml⟩ := List.exists_mem_of_ne_nil _ (pathList_ne_nil l hc.1)
    obtain ⟨⟨cr, pr⟩, hmr⟩ := List.exists_mem_of_ne_nil _ (pathList_ne_nil r hc.2)
    have hdl := pathList_depth_lt l hc.1 cl pl hml
    have hdr := pathList_depth_lt r hc.2 cr pr hmr
    rw [pathList_inner ch w l r hl]
    simp only [List.length_append, List.length_map]
    by_cases hle : (pathList l).length ≤ (pathList r).length
    · refine ⟨cl, '0' :: pl, List.mem_append_left _ (List.mem_map.mpr ⟨(cl, pl), hml, rfl⟩), ?_⟩
      simp only [List.length_cons]
      omega
    · refine ⟨cr, '1' :: pr, List.mem_append_right _ (List.mem_map.mpr ⟨(cr, pr), hmr, rfl⟩), ?_⟩
      simp only [List.length_cons]
      omega

/-- The paths of a tree are made of the bits `'0'` and `'1'`. -/
theorem pathList_bits (n : Node) (c : Char) (p : List Char) (hp : (c, p) ∈ pathList n) :
    ∀ b ∈ p, b = '0' ∨ b = '1' := by
  induction n generalizing p with
  | nullptr => simp [pathList] at hp
  | mk ch w l r ihl ihr =>
    cases hl : (l.isNull && r.isNull) with
    | true =>
      rw [pathList_leaf ch w l r hl] at hp
      simp only [List.mem_singleton, Prod.mk.injEq] at hp
      simp [hp.2]
    | false =>
      rw [pathList_inner ch w l r hl] at hp
      simp only [List.mem_append, List.mem_map, Prod.mk.injEq] at hp
      rcases hp with ⟨⟨a1, a2⟩, ha, hac, hap⟩ | ⟨⟨a1, a2⟩, ha, hac, hap⟩
      · simp only at hac hap
        subst hac
        intro b hb
        rw [← hap] at hb
        rcases List.mem_cons.mp hb with e | hb
        · exact Or.inl e
        · exact ihl a2 ha b hb
      · simp only at hac hap
        subst hac
        intro b hb
        rw [← hap] at hb
        rcases List.mem_cons.mp hb with e | hb
        · exact Or.inr e
        · exact ihr a2 ha b hb

theorem length_concatCodes (table : UMap Char (List Char)) (text : List Char) :
    (concatCodes table text).length = (text.map (fun c => (codeOf table c).length)).sum := by
  simp [concatCodes, List.length_flatten, List.map_map, Function.comp_def]

/-- A sum of numbers that are `B` at most, one of them less by `d`. -/
theorem sum_le_of_one_small (text : List Char) (f : Char → Nat) (B d : Nat)
    (hall : ∀ c ∈ text, f c ≤ B) (c0 : Char) (h0 : c0 ∈ text) (hsmall : f c0 + d ≤ B) :
    (text.map f).sum + d ≤ B * text.length := by
  induction text with
  | nil => simp at h0
  | cons c text ih =>
    have hc := hall c (List.mem_cons_self _ _)
    have hrest : ∀ c2 ∈ text, f c2 ≤ B := fun c2 h2 => hall c2 (List.mem_cons_of_mem _ h2)
    have hsum : (text.map f).sum ≤ B * text.length := by
      have := List.sum_le_card_nsmul (text.map f) B (by
        intro x hx
        obtain ⟨c2, h2, rfl⟩ := List.mem_map.mp hx
        exact hrest c2 h2)
      simpa [Nat.mul_comm] using this
    simp only [List.map_cons, List.sum_cons, List.length_cons, Nat.mul_succ]
    rcases List.mem_cons.mp h0 with e | h0
    · subst e
      omega
    · have := ih hrest h0
      omega

/-- C14: whatever element of least weight the priority queue returns first,
the text "Hello world!", 12 symbols with `l` counted 3 times and `o` counted 2
times, is encoded to a string of the bits `'0'` and `'1'` that is shorter than
12 * 8 = 96 bits. -/
theorem hello_world_compressed (tie : List Node → Nat) :
    textHello.length = 12 ∧
      umapFind (getCharWeightMap textHello) 'l' = some 3 ∧
      umapFind (getCharWeightMap textHello) 'o' = some 2 ∧
      ∃ root codes s, makeHuffmanTree tie textHello = .ok root ∧
        encodeChars root = .ok codes ∧ encodeText textHello codes = .ok s ∧
        (∀ b ∈ s, b = '0' ∨ b = '1') ∧ s.length < 12 * 8 := by
  refine ⟨by decide, by decide, by decide, ?_⟩
  obtain ⟨root, hroot, hs, hnd, hmem, hcodes, henc⟩ :=
    pipeline_spec tie textHello (by decide)
  have hin : root.isLeaf = false :=
    isLeaf_false_of_two root 'H' 'e' ((hmem 'H').mpr (by decide))
      ((hmem 'e').mpr (by decide)) (by decide)
  have hperm : (leafSymbols root).Perm textHello.dedup := by
    rw [List.perm_ext_iff_of_nodup hnd (List.nodup_dedup textHello)]
    intro c
    rw [hmem, List.mem_dedup]
  have hk : (pathList root).length = 9 := by
    have h1 := hperm.length_eq
    have h2 : textHello.dedup.length = 9 := by decide
    simpa [leafSymbols, h2] using h1
  have hcode : ∀ c ∈ textHello, (c, codeOf (pathList root) c) ∈ pathList root :=
    fun c hc => (codeOf_pathList root hnd c ((hmem c).mpr hc)).1
  refine ⟨root, pathList root, _, hroot, hcodes, henc, ?_, ?_⟩
  · intro b hb
    simp only [concatCodes, List.mem_flatten, List.mem_map] at hb
    obtain ⟨code, ⟨c, hc, rfl⟩, hbc⟩ := hb
    exact pathList_bits root c _ (hcode c hc) b hbc
  · obtain ⟨c0, p0, hm0, hshort⟩ := exists_short_path root hs hin
    have hc0 : c0 ∈ textHello := (hmem c0).mp (List.mem_map.mpr ⟨(c0, p0), hm0, rfl⟩)
    have hp0 : codeOf (pathList root) c0 = p0 := by
      simp [codeOf, umapFind_of_mem (pathList root) c0 p0 hnd hm0]
    have hbound := sum_le_of_one_small textHello
      (fun c => (codeOf (pathList root) c).length) 8 4
      (by
        intro c hc
        have := pathList_depth_lt root hs c _ (hcode c hc)
        simp only
        omega)
      c0 hc0 (by
        simp only [hp0]
        omega)
    rw [length_concatCodes]
    have hlen : textHello.length = 12 := by decide
    rw [hlen] at hbound
    omega

/-! ## Weights and depths: the step of the optimality argument -/

theorem wrapInt_wrapInt_add (v k : Int) : wrapInt (wrapInt v + k) = wrapInt (v + k) := by
  unfold wrapInt
  omega

/-- Counting `n` more occurrences of a symbol that the table already has. -/
theorem foldl_count_replicate (c : Char) (n : Nat) (v : Int) :
    (List.replicate n c).foldl
        (fun charWeightMap ch =>
          umapAssign charWeightMap ch (wrapInt ((umapFind charWeightMap ch).getD 0 + 1)))
        [(c, wrapInt v)] = [(c, wrapInt (v + n))] := by
  induction n generalizing v with
  | zero => simp
  | succ n ih =>
    rw [List.replicate_succ, List.foldl_cons]
    have hstep : umapAssign [(c, wrapInt v)] c
        (wrapInt ((umapFind [(c, wrapInt v)] c).getD 0 + 1)) = [(c, wrapInt (v + 1))] := by
      simp [umapAssign, umapFind, wrapInt_wrapInt_add]
    rw [hstep, ih (v + 1)]
    congr 3
    push_cast
    ring

/-- The frequency table of a symbol repeated `n + 1` times holds the wrapped
number. -/
theorem getCharWeightMap_replicate (c : Char) (n : Nat) :
    getCharWeightMap (List.replicate (n + 1) c) = [(c, wrapInt ((n : Int) + 1))] := by
  rw [getCharWeightMap, List.replicate_succ, List.foldl_cons]
  have hstep : umapAssign ([] : UMap Char Int) c
      (wrapInt ((umapFind ([] : UMap Char Int) c).getD 0 + 1)) = [(c, wrapInt 1)] := by
    simp [umapAssign, umapFind]
  rw [hstep, foldl_count_replicate c n 1]
  congr 3
  ring

theorem getCharWeightMap_append (l1 l2 : List Char) :
    getCharWeightMap (l1 ++ l2) =
      l2.foldl
        (fun charWeightMap ch =>
          umapAssign charWeightMap ch (wrapInt ((umapFind charWeightMap ch).getD 0 + 1)))
        (getCharWeightMap l1) := by
  rw [getCharWeightMap, List.foldl_append]
  rfl

theorem getCharWeightMap_textOverflow :
    getCharWeightMap textOverflow = [('a', -2147483648)] := by
  rw [textOverflow, getCharWeightMap_replicate]
  rfl

theorem getCharWeightMap_textOverflowAB :
    getCharWeightMap textOverflowAB = [('a', 2147483647), ('b', 1)] := by
  rw [textOverflowAB, getCharWeightMap_append, getCharWeightMap_replicate]
  rfl

theorem makeHuffmanTree_of_queue (tie : List Node → Nat) (text : List Char) (q : List Node)
    (h : initialQueue text = q) :
    makeHuffmanTree tie text = (mergeLoop tie q.length q).bind (pqTop tie) := by
  simp only [makeHuffmanTree, h]

theorem replicate_succ_ne_nil (n : Nat) (c : Char) (l : List Char) :
    List.replicate (n + 1) c ++ l ≠ [] := by
  rw [List.replicate_succ]
  exact List.cons_ne_nil _ _

theorem textOverflow_ne_nil : textOverflow ≠ [] := by
  have := replicate_succ_ne_nil 2147483647 'a' []
  rwa [List.append_nil] at this

theorem makeHuffmanTree_textOverflow :
    makeHuffmanTree firstCandidate textOverflow =
      .ok (.mk 'a' (-2147483648) .nullptr .nullptr) := by
  apply makeHuffmanTree_single
  rw [initialQueue_eq, getCharWeightMap_textOverflow]
  rfl

/-- C9 as the specification states it fails at the text of 2147483648 times
`a`: the counter of `a` wraps around, and the root that `makeHuffmanTree`
returns, the one leaf, has the weight -2147483648, not the length
2147483648 of the text. -/
theorem root_weight_overflow :
    textOverflow ≠ [] ∧ textOverflow.length = 2147483648 ∧
      makeHuffmanTree firstCandidate textOverflow =
        .ok (.mk 'a' (-2147483648) .nullptr .nullptr) ∧
      (Node.mk 'a' (-2147483648) .nullptr .nullptr).weight = -2147483648 ∧
      (Node.mk 'a' (-2147483648) .nullptr .nullptr).weight ≠ (2147483648 : Int) :=
  ⟨textOverflow_ne_nil, by rw [textOverflow, List.length_replicate],
    makeHuffmanTree_textOverflow, rfl, by decide⟩

theorem makeHuffmanTree_textOverflowAB :
    makeHuffmanTree firstCandidate textOverflowAB = .ok treeOverflowAB := by
  rw [makeHuffmanTree_of_queue firstCandidate textOverflowAB
    [.mk 'a' 2147483647 .nullptr .nullptr, .mk 'b' 1 .nullptr .nullptr]
    (by rw [initialQueue_eq, getCharWeightMap_textOverflowAB]; rfl)]
  decide

/-- C16 as the specification states it fails at the text of 2147483647 times
`a` followed by `b`: the leaves have the weights 2147483647 and 1, their sum
wraps around, and the root gets the weight -2147483648, which is not the sum
of the weights of its children. -/
theorem inner_weight_overflow :
    textOverflowAB ≠ [] ∧
      makeHuffmanTree firstCandidate textOverflowAB = .ok treeOverflowAB ∧
      treeOverflowAB.weight = -2147483648 ∧
      (Node.mk 'b' 1 .nullptr .nullptr).weight +
        (Node.mk 'a' 2147483647 .nullptr .nullptr).weight = 2147483648 ∧
      ¬ weightsAdd treeOverflowAB := by
  refine ⟨replicate_succ_ne_nil 2147483646 'a' ['b'], makeHuffmanTree_textOverflowAB,
    rfl, rfl, ?_⟩
  intro h
  rcases h with h | ⟨h, _, _⟩
  · exact absurd h (by decide)
  · exact absurd h (by decide)

end Huffman
